import Mathlib

/-!
Verification of the ChordPro parsing/serialization core of the Marsyas songbook
application.  The TypeScript sources are shallowly embedded: JavaScript strings
become `List Char`, JavaScript numbers become `Int` (or `Nat` for character
offsets), `undefined`/`null` become `Option`, and the small regular expressions
used by the code are translated into equivalent character-list scanners.
-/

/-- Whitespace test matching the characters JavaScript `trim` removes that can
occur in this code base's inputs (space, tab, newline, carriage return,
vertical tab, form feed). -/
def isWS (c : Char) : Bool :=
  c = ' ' || c = '\t' || c = '\n' || c = '\r' || c = '\x0b' || c = '\x0c'

/-- JavaScript `String.prototype.trim`: drop whitespace from both ends. -/
def jsTrim (l : List Char) : List Char :=
  ((l.dropWhile isWS).reverse.dropWhile isWS).reverse

/-- JavaScript `String.prototype.toLowerCase` restricted to ASCII letters,
the only case-carrying characters this code compares. -/
def lowerChar (c : Char) : Char :=
  if 'A' ≤ c ∧ c ≤ 'Z' then Char.ofNat (c.toNat + 32) else c

def jsToLower (l : List Char) : List Char := l.map lowerChar

/-- Decimal digits accumulator; the fuel argument only serves structural
termination and never runs out when it starts at the number itself. -/
def natDigitsAux : Nat → Nat → List Char → List Char
  | 0, _, acc => acc
  | _ + 1, 0, acc => acc
  | fuel + 1, m, acc => natDigitsAux fuel (m / 10) (Char.ofNat (m % 10 + 48) :: acc)

/-- Decimal notation of a natural number. -/
def natToChars (n : Nat) : List Char :=
  if n = 0 then ['0'] else natDigitsAux n n []

/-- JavaScript number-to-string for the integers this code serializes. -/
def intToChars (i : Int) : List Char :=
  if i < 0 then '-' :: natToChars i.natAbs else natToChars i.natAbs

/-- JavaScript `parseInt(s, 10)`: skip leading whitespace, optional sign, then
a maximal digit run; `none` models `NaN`. -/
def jsParseInt (l : List Char) : Option Int :=
  let rest := l.dropWhile isWS
  let (sign, digitsPart) : Int × List Char :=
    match rest with
    | '-' :: r => (-1, r)
    | '+' :: r => (1, r)
    | r => (1, r)
  let digits := digitsPart.takeWhile (fun c => '0' ≤ c ∧ c ≤ '9')
  if digits = [] then none
  else some (sign * (digits.foldl (fun acc c => acc * 10 + ((c.toNat : Int) - 48)) 0))

/-- Recursion core of `splitLines`; the fuel argument only serves structural
termination and never runs out when it starts at the input length. -/
def splitLinesAux : Nat → List Char → List (List Char)
  | 0, l => [l]
  | _ + 1, [] => [[]]
  | fuel + 1, c :: rest =>
    if c = '\n' then [] :: splitLinesAux fuel rest
    else if c = '\r' && rest.head? = some '\n' then [] :: splitLinesAux fuel rest.tail
    else
      match splitLinesAux fuel rest with
      | [] => [[c]]
      | l :: ls => (c :: l) :: ls

/-- Split on the regex `\r?\n` exactly as `content.split(/\r?\n/)` does: a lone
carriage return does not split, `\n` and `\r\n` both do. -/
def splitLines (content : List Char) : List (List Char) :=
  splitLinesAux content.length content

/-- JavaScript `lines.join('\n')`. -/
def joinLF : List (List Char) → List Char
  | [] => []
  | [l] => l
  | l :: ls => l ++ '\n' :: joinLF ls

namespace Transpose

/-- All note names in order (using sharps), from `chord-transpose.ts`. -/
def NOTES_SHARP : List (List Char) :=
  [['C'], ['C', '#'], ['D'], ['D', '#'], ['E'], ['F'], ['F', '#'],
   ['G'], ['G', '#'], ['A'], ['A', '#'], ['B']]

/-- All note names in order (using flats), from `chord-transpose.ts`. -/
def NOTES_FLAT : List (List Char) :=
  [['C'], ['D', 'b'], ['D'], ['E', 'b'], ['E'], ['F'], ['G', 'b'],
   ['G'], ['A', 'b'], ['A'], ['B', 'b'], ['B']]

/-- The `FLAT_TO_SHARP` lookup table as a function. -/
def flatToSharp (n : List Char) : Option (List Char) :=
  if n = ['D', 'b'] then some ['C', '#']
  else if n = ['E', 'b'] then some ['D', '#']
  else if n = ['G', 'b'] then some ['F', '#']
  else if n = ['A', 'b'] then some ['G', '#']
  else if n = ['B', 'b'] then some ['A', '#']
  else none

/-- The `SHARP_TO_FLAT` lookup table as a function. -/
def sharpToFlat (n : List Char) : Option (List Char) :=
  if n = ['C', '#'] then some ['D', 'b']
  else if n = ['D', '#'] then some ['E', 'b']
  else if n = ['F', '#'] then some ['G', 'b']
  else if n = ['G', '#'] then some ['A', 'b']
  else if n = ['A', '#'] then some ['B', 'b']
  else none

structure ParsedChord where
  root : List Char
  quality : List Char
  bass : Option (List Char)
deriving DecidableEq, Repr

/-- JavaScript `indexOf` on a character list: index of the first occurrence,
or `none` for `-1`. -/
def charIndexOf : List Char → Char → Option Nat
  | [], _ => none
  | c :: cs, x => if c = x then some 0 else (charIndexOf cs x).map (· + 1)

/-- The source's `parseChord`: split an optional bass at the first slash (only
when it is not the first character), then match a leading root `[A-G][#b]?`. -/
def parseChord (chord : List Char) : Option ParsedChord :=
  if chord = [] || jsTrim chord = [] then none
  else
    let (mainPart, bass) : List Char × Option (List Char) :=
      match charIndexOf chord '/' with
      | some i => if 0 < i then (chord.take i, some (chord.drop (i + 1))) else (chord, none)
      | none => (chord, none)
    match mainPart with
    | [] => none
    | c :: rest =>
      if 'A' ≤ c ∧ c ≤ 'G' then
        let root : List Char :=
          match rest with
          | h :: _ => if h = '#' || h = 'b' then [c, h] else [c]
          | [] => [c]
        some ⟨root, mainPart.drop root.length, bass⟩
      else none

/-- JavaScript `Array.prototype.indexOf` over the note table: the index of
the first equal entry, or `-1`. -/
def noteListIndexOf : List (List Char) → List Char → Int
  | [], _ => -1
  | a :: as, x =>
    if a = x then 0
    else
      let r := noteListIndexOf as x
      if r < 0 then -1 else r + 1

/-- The source's `getNoteIndex`: normalize flats to sharps, then index into
the sharp wheel; `-1` signals an unknown note. -/
def getNoteIndex (note : List Char) : Int :=
  let normalized := (flatToSharp note).getD note
  noteListIndexOf NOTES_SHARP normalized

/-- The source's `getNoteFromIndex`; JavaScript `%` is truncating division
remainder, modeled by `Int.tmod`. -/
def getNoteFromIndex (index : Int) (preferFlats : Bool) : List Char :=
  let normalizedIndex := ((index.tmod 12) + 12).tmod 12
  let sharpNote := NOTES_SHARP.getD normalizedIndex.toNat []
  if preferFlats then
    match sharpToFlat sharpNote with
    | some f => f
    | none => sharpNote
  else sharpNote

/-- The source's `isFlat`: `note.includes('b')`. -/
def isFlat (note : List Char) : Bool := note.contains 'b'

/-- The source's `transposeNote`. -/
def transposeNote (note : List Char) (semitones : Int) : List Char :=
  let index := getNoteIndex note
  if index < 0 then note
  else getNoteFromIndex (index + semitones) (isFlat note)

/-- The source's `transposeChord`: identity on zero shift or unparseable
chords, otherwise transpose root and (truthy) bass and reassemble. -/
def transposeChord (chord : List Char) (semitones : Int) : List Char :=
  if semitones = 0 then chord
  else
    match parseChord chord with
    | none => chord
    | some p =>
      let result := transposeNote p.root semitones ++ p.quality
      match p.bass with
      | some b => if b ≠ [] then result ++ '/' :: transposeNote b semitones else result
      | none => result

/-- Reassemble a parsed chord the way `transposeChord` does (root, quality,
then a slash-bass only when the bass is truthy, i.e. present and nonempty). -/
def rebuildChord (p : ParsedChord) : List Char :=
  p.root ++ p.quality ++
    (match p.bass with
     | some b => if b ≠ [] then '/' :: b else []
     | none => [])

/-- A chord string either fails to parse or reassembles to itself. -/
def chordReassembles (c : List Char) : Bool :=
  match parseChord c with
  | none => true
  | some p => rebuildChord p = c

end Transpose

theorem Int.tmod_neg_arg (a b : Int) : (-a).tmod b = -(a.tmod b) := by
  rw [Int.tmod_def, Int.tmod_def, Int.neg_tdiv]
  ring

/-- The JavaScript normalization `((j % 12) + 12) % 12` (truncating `%`)
computes the mathematical residue modulo 12. -/
theorem tmod12_norm (j : Int) : ((j.tmod 12) + 12).tmod 12 = j % 12 := by
  have hd : 12 * j.tdiv 12 + j.tmod 12 = j := Int.tdiv_add_tmod j 12
  have hub : j.tmod 12 < 12 := Int.tmod_lt_of_pos j (by norm_num)
  have hlb : -12 < j.tmod 12 := by
    rcases le_or_lt 0 j with hj | hj
    · have := Int.tmod_nonneg 12 hj
      omega
    · have h1 : (-j).tmod 12 < 12 := Int.tmod_lt_of_pos (-j) (by norm_num)
      have h2 : (-j).tmod 12 = -(j.tmod 12) := Int.tmod_neg_arg j 12
      omega
  have h0 : (0:Int) ≤ j.tmod 12 + 12 := by omega
  rw [Int.tmod_eq_emod h0 (by norm_num)]
  have hce : 12 * (j / 12) + j % 12 = j := Int.ediv_add_emod j 12
  have hc0 : 0 ≤ j % 12 := Int.emod_nonneg j (by norm_num)
  have hc1 : j % 12 < 12 := Int.emod_lt_of_pos j (by norm_num)
  omega

namespace Transpose

theorem getNoteFromIndex_spell (j : Int) (pf : Bool) :
    getNoteFromIndex j pf =
      (if pf && (sharpToFlat (NOTES_SHARP.getD (j % 12).toNat [])).isSome then
        NOTES_FLAT.getD (j % 12).toNat []
      else NOTES_SHARP.getD (j % 12).toNat []) := by
  unfold getNoteFromIndex
  rw [tmod12_norm]
  have hc0 : 0 ≤ j % 12 := Int.emod_nonneg j (by norm_num)
  have hc1 : j % 12 < 12 := Int.emod_lt_of_pos j (by norm_num)
  set r := j % 12 with hr
  clear_value r
  interval_cases r <;> cases pf <;> decide

theorem getNoteIndex_getNoteFromIndex (j : Int) (pf : Bool) :
    getNoteIndex (getNoteFromIndex j pf) = j % 12 := by
  rw [getNoteFromIndex_spell]
  have hc0 : 0 ≤ j % 12 := Int.emod_nonneg j (by norm_num)
  have hc1 : j % 12 < 12 := Int.emod_lt_of_pos j (by norm_num)
  set r := j % 12 with hr
  clear_value r
  interval_cases r <;> cases pf <;> decide

theorem noteListIndexOf_nonneg_mem :
    ∀ (l : List (List Char)) (x : List Char), 0 ≤ noteListIndexOf l x → x ∈ l := by
  intro l
  induction l with
  | nil => intro x h; simp [noteListIndexOf] at h
  | cons a as ih =>
    intro x h
    unfold noteListIndexOf at h
    by_cases ha : a = x
    · rw [ha]; exact List.mem_cons_self x as
    · rw [if_neg ha] at h
      simp only at h
      split_ifs at h with hr
      · omega
      · exact List.mem_cons_of_mem a (ih x (by omega))

/-- Any string the note table recognizes is one of the seventeen concrete
note spellings. -/
theorem valid_note_cases (n : List Char) (h : 0 ≤ getNoteIndex n) :
    n ∈ NOTES_SHARP ∨ n ∈ [['D','b'], ['E','b'], ['G','b'], ['A','b'], ['B','b']] := by
  unfold getNoteIndex at h
  unfold flatToSharp at h
  split_ifs at h with h1 h2 h3 h4 h5
  · right; simp [h1]
  · right; simp [h2]
  · right; simp [h3]
  · right; simp [h4]
  · right; simp [h5]
  · simp only [Option.getD_none] at h
    exact Or.inl (noteListIndexOf_nonneg_mem NOTES_SHARP n h)

theorem transposeNote_valid (n : List Char) (s : Int) (h : 0 ≤ getNoteIndex n) :
    transposeNote n s = getNoteFromIndex (getNoteIndex n + s) (isFlat n) := by
  unfold transposeNote
  rw [if_neg (by omega)]

/-- Transposing any note by a full octave is the identity. -/
theorem transposeNote_12 (n : List Char) : transposeNote n 12 = n := by
  by_cases h : 0 ≤ getNoteIndex n
  · rw [transposeNote_valid n 12 h]
    rcases valid_note_cases n h with hm | hm
    · simp only [NOTES_SHARP, List.mem_cons, List.not_mem_nil, or_false] at hm
      rcases hm with rfl | rfl | rfl | rfl | rfl | rfl | rfl | rfl | rfl | rfl | rfl | rfl <;> decide
    · simp only [List.mem_cons, List.not_mem_nil, or_false] at hm
      rcases hm with rfl | rfl | rfl | rfl | rfl <;> decide
  · unfold transposeNote
    rw [if_pos (by omega)]

/-- Claim C2, counterexample: transposition does not compose as a group
action on chord strings.  Transposing `Db` by 1 and then by 1 yields `D#`
(the flat spelling preference is lost at the intermediate note `D`, which has
no flat form), while transposing `Db` by 2 directly yields `Eb`. -/
theorem transpose_not_group_action :
    transposeChord (transposeChord ['D', 'b'] 1) 1 = ['D', '#'] ∧
    transposeChord ['D', 'b'] (1 + 1) = ['E', 'b'] ∧
    transposeChord (transposeChord ['D', 'b'] 1) 1 ≠ transposeChord ['D', 'b'] (1 + 1) := by
  decide

/-- Claim C2, amended: `transposeChord c 0 = c` for every chord string;
`transposeChord c 12 = c` for every chord string that `parseChord` either
rejects or reassembles exactly (which excludes only degenerate strings such
as `C/` whose empty bass is dropped on reassembly); and two-step transposition
agrees with one-step transposition by the sum at the pitch-class level: for
every note the table recognizes, the notes reached by transposing by `a` then
`b` and by `a + b` have equal indices on the chromatic wheel, although their
sharp/flat spellings may differ. -/
theorem transpose_group_action_amended :
    (∀ c : List Char, transposeChord c 0 = c) ∧
    (∀ c : List Char, chordReassembles c = true → transposeChord c 12 = c) ∧
    (∀ (n : List Char) (a b : Int), 0 ≤ getNoteIndex n →
      getNoteIndex (transposeNote (transposeNote n a) b) =
        getNoteIndex (transposeNote n (a + b))) := by
  refine ⟨?_, ?_, ?_⟩
  · intro c
    simp [transposeChord]
  · intro c hc
    unfold chordReassembles at hc
    unfold transposeChord
    rw [if_neg (by norm_num)]
    rcases hp : parseChord c with _ | p
    · rfl
    · rw [hp] at hc
      simp only [decide_eq_true_eq] at hc
      rw [← hc]
      unfold rebuildChord
      rcases p with ⟨root, quality, bass⟩
      rcases bass with _ | b
      · simp [transposeNote_12]
      · by_cases hb : b = []
        · simp [hb, transposeNote_12]
        · simp [hb, transposeNote_12, List.append_assoc]
  · intro n a b h
    rw [transposeNote_valid n a h, transposeNote_valid n (a + b) h]
    have h1 : 0 ≤ getNoteIndex (getNoteFromIndex (getNoteIndex n + a) (isFlat n)) := by
      rw [getNoteIndex_getNoteFromIndex]
      exact Int.emod_nonneg _ (by norm_num)
    rw [transposeNote_valid _ b h1]
    rw [getNoteIndex_getNoteFromIndex, getNoteIndex_getNoteFromIndex,
      getNoteIndex_getNoteFromIndex]
    omega

/-- Claim C7: for every note the table recognizes and every shift, a
flat-spelled input note transposes to the flat spelling of the target pitch
class whenever that pitch class has one (and to the sharp spelling
otherwise), while a sharp- or natural-spelled input never transposes to a
flat spelling. -/
theorem transpose_spelling_preserved (n : List Char) (s : Int)
    (h : 0 ≤ getNoteIndex n) :
    (isFlat n = true →
      transposeNote n s =
        (if (sharpToFlat (NOTES_SHARP.getD ((getNoteIndex n + s) % 12).toNat [])).isSome then
          NOTES_FLAT.getD ((getNoteIndex n + s) % 12).toNat []
        else NOTES_SHARP.getD ((getNoteIndex n + s) % 12).toNat [])) ∧
    (isFlat n = false →
      transposeNote n s = NOTES_SHARP.getD ((getNoteIndex n + s) % 12).toNat [] ∧
      isFlat (transposeNote n s) = false) := by
  rw [transposeNote_valid n s h, getNoteFromIndex_spell]
  have hc0 : 0 ≤ (getNoteIndex n + s) % 12 := Int.emod_nonneg _ (by norm_num)
  have hc1 : (getNoteIndex n + s) % 12 < 12 := Int.emod_lt_of_pos _ (by norm_num)
  constructor
  · intro hf
    rw [hf]
    simp only [Bool.true_and]
  · intro hf
    rw [hf]
    simp only [Bool.false_and, if_false]
    refine ⟨rfl, ?_⟩
    set r := (getNoteIndex n + s) % 12 with hr
    clear_value r
    interval_cases r <;> decide

/-- Witness for claim C7 at the flat note `Db` shifted by 1 (target pitch
class 2 = `D`, no flat form) and the natural note `C` shifted by 1 (target
`C#`, not flat-spelled). -/
theorem transpose_spelling_preserved_witness :
    transposeNote ("Db".toList) 1 = ['D'] ∧
    transposeNote ("C".toList) 1 = ['C', '#'] ∧
    isFlat (transposeNote ("C".toList) 1) = false := by
  have h1 := (transpose_spelling_preserved ("Db".toList) 1 (by decide)).1 (by decide)
  have h2 := (transpose_spelling_preserved ("C".toList) 1 (by decide)).2 (by decide)
  refine ⟨?_, ?_, h2.2⟩
  · rw [h1]; decide
  · rw [h2.1]; decide

/-- Witness for the amended claim C2 at the chords `Am7/E`, `C#m` and the
note `Db` with shifts 3 and 4. -/
theorem transpose_group_action_amended_witness :
    transposeChord ("Am7/E".toList) 0 = "Am7/E".toList ∧
    transposeChord ("C#m".toList) 12 = "C#m".toList ∧
    getNoteIndex (transposeNote (transposeNote ("Db".toList) 3) 4) =
      getNoteIndex (transposeNote ("Db".toList) (3 + 4)) :=
  ⟨transpose_group_action_amended.1 _,
   transpose_group_action_amended.2.1 _ (by decide),
   transpose_group_action_amended.2.2 _ 3 4 (by decide)⟩

end Transpose

namespace Parser

structure ChordPosition where
  chord : List Char
  position : Nat
deriving DecidableEq, Repr

structure SongLine where
  lyrics : List Char
  chords : List ChordPosition
deriving DecidableEq, Repr

/-- A section; the runtime `type` string is unchecked in the source (the
parser casts whatever follows `start_of_`), so it is modeled as a string. -/
structure SongSection where
  type : List Char
  label : Option (List Char)
  lines : List SongLine
deriving DecidableEq, Repr

structure ParsedSong where
  title : Option (List Char)
  subtitle : Option (List Char)
  artist : Option (List Char)
  key : Option (List Char)
  capo : Option Int
  tempo : Option Int
  sections : List SongSection
deriving DecidableEq, Repr

/-- Helper for the chord-bracket regex `\[([^\]]+)\]`: given the characters
after an opening `[`, return the (possibly empty) run before the first `]`
together with the characters after that `]`, or `none` if no `]` follows. -/
def splitAtClose : List Char → Option (List Char × List Char)
  | [] => none
  | c :: rest =>
    if c = ']' then some ([], rest)
    else (splitAtClose rest).map (fun p => (c :: p.1, p.2))

theorem splitAtClose_length :
    ∀ {l name rest : List Char}, splitAtClose l = some (name, rest) →
      name.length + rest.length + 1 = l.length := by
  intro l
  induction l with
  | nil => intro name rest h; simp [splitAtClose] at h
  | cons c cs ih =>
    intro name rest h
    rw [splitAtClose] at h
    split_ifs at h with hc
    · simp only [Option.some.injEq, Prod.mk.injEq] at h
      obtain ⟨h1, h2⟩ := h
      subst h1; subst h2
      simp
    · rcases hs : splitAtClose cs with _ | p
      · rw [hs] at h; simp at h
      · rw [hs] at h
        simp only [Option.map_some', Option.some.injEq, Prod.mk.injEq] at h
        obtain ⟨h1, h2⟩ := h
        subst h1; subst h2
        have := ih hs
        simp only [List.length_cons]
        omega

/-- The optional-space suffix ` ?` of the chord regex: consume at most one
space. -/
def eatSpace : List Char → List Char
  | [] => []
  | c :: rest => if c = ' ' then rest else c :: rest

theorem eatSpace_length_le (l : List Char) : (eatSpace l).length ≤ l.length := by
  cases l with
  | nil => exact Nat.le_refl _
  | cons c rest =>
    rw [eatSpace]
    split_ifs <;> simp

/-- The scanning loop of the source's `parseLine`: repeatedly find the next
match of `\[([^\]]+)\] ?`, accumulating the literal text in between as
lyrics; `pos` is the number of lyric characters already emitted, which is
exactly the `position` the source records for each chord.  The fuel argument
only serves structural termination and never runs out when it starts at the
input length. -/
def parseLineAux : Nat → Nat → List Char → List Char × List ChordPosition
  | 0, _, l => (l, [])
  | _ + 1, _, [] => ([], [])
  | fuel + 1, pos, c :: rest =>
    if c = '[' then
      match splitAtClose rest with
      | some (name, rest2) =>
        if name = [] then
          let p := parseLineAux fuel (pos + 1) rest
          ('[' :: p.1, p.2)
        else
          let p := parseLineAux fuel pos (eatSpace rest2)
          (p.1, ⟨name, pos⟩ :: p.2)
      | none =>
        let p := parseLineAux fuel (pos + 1) rest
        ('[' :: p.1, p.2)
    else
      let p := parseLineAux fuel (pos + 1) rest
      (c :: p.1, p.2)

/-- The source's `parseLine`. -/
def parseLine (line : List Char) : SongLine :=
  let p := parseLineAux line.length 0 line
  ⟨p.1, p.2⟩

/-- Claim C3: the repository's own test expects `parseLine "[C] [G] [Am]"`
to yield lyrics `"  "` with chords at positions 0, 1 and 2, but the regex
`\[([^\]]+)\] ?` consumes the single space after `[C]` and after `[G]`, so
the code returns empty lyrics with all three chords at position 0. -/
theorem parseLine_chord_only_divergence :
    parseLine ("[C] [G] [Am]".toList) =
      ⟨[], [⟨['C'], 0⟩, ⟨['G'], 0⟩, ⟨['A', 'm'], 0⟩]⟩ ∧
    parseLine ("[C] [G] [Am]".toList) ≠
      ⟨"  ".toList, [⟨['C'], 0⟩, ⟨['G'], 1⟩, ⟨['A', 'm'], 2⟩]⟩ := by
  decide

/-- The source's directive regex
`^\{([^:}]+)(?::\s*(.*))?}\s*$` as a character-list function.  A line
matches iff it starts with `{`, has a nonempty name free of `:` and `}`,
and then either the name is directly closed by `}` followed only by
whitespace, or a `:` introduces a value whose closing `}` is the final
non-whitespace character (the JavaScript dot does not match line
terminators, so a value containing a line terminator after its leading
whitespace fails).  Returns the trimmed lowercased name and trimmed value,
as `parseDirective` in the source computes them. -/
def parseDirective (l : List Char) : Option (List Char × List Char) :=
  match l with
  | '{' :: rest =>
    let name := rest.takeWhile (fun c => !(c = ':' || c = '}'))
    if name = [] then none
    else
      match rest.drop name.length with
      | '}' :: tail =>
        if tail.all isWS then some (jsToLower (jsTrim name), []) else none
      | ':' :: tail =>
        let revTail := tail.reverse
        match revTail.dropWhile isWS with
        | '}' :: revVal =>
          let v := revVal.reverse
          if (v.dropWhile isWS).any (fun c => c = '\n' || c = '\r') then none
          else some (jsToLower (jsTrim name), jsTrim v)
        | _ => none
      | _ => none
  | _ => none

/-- The source's `normalizeDirective` alias table. -/
def normalizeDirective (d : List Char) : List Char :=
  if d = ['t'] then "title".toList
  else if d = ['s', 't'] then "subtitle".toList
  else if d = ['s', 'u'] then "subtitle".toList
  else if d = ['c'] then "comment".toList
  else if d = ['c', 'i'] then "comment_italic".toList
  else if d = ['c', 'b'] then "comment_box".toList
  else if d = ['s', 'o', 'c'] then "start_of_chorus".toList
  else if d = ['e', 'o', 'c'] then "end_of_chorus".toList
  else if d = ['s', 'o', 'v'] then "start_of_verse".toList
  else if d = ['e', 'o', 'v'] then "end_of_verse".toList
  else if d = ['s', 'o', 'b'] then "start_of_bridge".toList
  else if d = ['e', 'o', 'b'] then "end_of_bridge".toList
  else if d = ['s', 'o', 't'] then "start_of_tab".toList
  else if d = ['e', 'o', 't'] then "end_of_tab".toList
  else d

/-- JavaScript `parseInt(value, 10) || undefined`: zero and `NaN` are falsy
and become `undefined`. -/
def parseIntOrUndefined (v : List Char) : Option Int :=
  match jsParseInt v with
  | some n => if n = 0 then none else some n
  | none => none

/-- Scanner state of `parseChordPro`: the song built so far, the currently
accumulating section, and the `inSection` flag. -/
structure ParseState where
  song : ParsedSong
  current : SongSection
  inSection : Bool
deriving Repr

def emptySong : ParsedSong := ⟨none, none, none, none, none, none, []⟩

def initialState : ParseState := ⟨emptySong, ⟨"none".toList, none, []⟩, false⟩

/-- One iteration of the `parseChordPro` loop body on a raw physical line. -/
def processLine (st : ParseState) (rawLine : List Char) : ParseState :=
  let trimmed := jsTrim rawLine
  if trimmed.head? = some '#' then st
  else
    match parseDirective trimmed with
    | some (nm, value) =>
      let n := normalizeDirective nm
      if n = "title".toList then { st with song := { st.song with title := some value } }
      else if n = "subtitle".toList then { st with song := { st.song with subtitle := some value } }
      else if n = "artist".toList then { st with song := { st.song with artist := some value } }
      else if n = "key".toList then { st with song := { st.song with key := some value } }
      else if n = "capo".toList then
        { st with song := { st.song with capo := parseIntOrUndefined value } }
      else if n = "tempo".toList then
        { st with song := { st.song with tempo := parseIntOrUndefined value } }
      else if ("start_of_".toList).isPrefixOf n then
        let sections :=
          if st.current.lines ≠ [] then st.song.sections ++ [st.current] else st.song.sections
        { song := { st.song with sections := sections },
          current := ⟨n.drop 9, if value = [] then none else some value, []⟩,
          inSection := true }
      else if ("end_of_".toList).isPrefixOf n then
        let sections :=
          if st.current.lines ≠ [] then st.song.sections ++ [st.current] else st.song.sections
        { song := { st.song with sections := sections },
          current := ⟨"none".toList, none, []⟩,
          inSection := false }
      else st
    | none =>
      if trimmed = [] then
        if st.inSection || st.current.lines ≠ [] then
          { st with current := { st.current with lines := st.current.lines ++ [⟨[], []⟩] } }
        else st
      else
        { st with current := { st.current with lines := st.current.lines ++ [parseLine rawLine] } }

/-- The source's `parseChordPro`: split into physical lines, run the state
machine, and flush a nonempty final section. -/
def parseChordPro (content : List Char) : ParsedSong :=
  let final := (splitLines content).foldl processLine initialState
  if final.current.lines ≠ [] then
    { final.song with sections := final.song.sections ++ [final.current] }
  else final.song

end Parser

namespace Editable

structure EditableChord where
  id : List Char
  chord : List Char
  position : Nat
deriving DecidableEq, Repr

structure EditableLine where
  id : List Char
  lyrics : List Char
  chords : List EditableChord
deriving DecidableEq, Repr

structure EditableSection where
  id : List Char
  type : List Char
  label : Option (List Char)
  lines : List EditableLine
deriving DecidableEq, Repr

structure EditableSong where
  title : Option (List Char)
  subtitle : Option (List Char)
  artist : Option (List Char)
  key : Option (List Char)
  capo : Option Int
  tempo : Option Int
  sections : List EditableSection
deriving DecidableEq, Repr

/-- The source's `toEditableLine`, with its generated
`line-{sectionIndex}-{lineIndex}` and `chord-...` identifiers. -/
def toEditableLine (sectionIndex lineIndex : Nat) (line : Parser.SongLine) : EditableLine :=
  ⟨"line-".toList ++ natToChars sectionIndex ++ '-' :: natToChars lineIndex,
   line.lyrics,
   line.chords.mapIdx (fun cIdx c =>
     ⟨"chord-".toList ++ natToChars sectionIndex ++ '-' :: natToChars lineIndex ++
        '-' :: natToChars cIdx,
      c.chord, c.position⟩)⟩

/-- The source's `toEditableSection`. -/
def toEditableSection (sectionIndex : Nat) (sec : Parser.SongSection) : EditableSection :=
  ⟨"section-".toList ++ natToChars sectionIndex,
   sec.type, sec.label,
   sec.lines.mapIdx (fun lIdx l => toEditableLine sectionIndex lIdx l)⟩

/-- The source's `toEditableSong`. -/
def toEditableSong (parsed : Parser.ParsedSong) : EditableSong :=
  ⟨parsed.title, parsed.subtitle, parsed.artist, parsed.key, parsed.capo, parsed.tempo,
   parsed.sections.mapIdx (fun sIdx s => toEditableSection sIdx s)⟩

/-- Stable insertion into a descending-by-position list; an element is placed
before every element of equal position, which is what JavaScript's stable
sort with comparator `(a, b) => b.position - a.position` produces. -/
def insertDesc (c : EditableChord) : List EditableChord → List EditableChord
  | [] => [c]
  | d :: ds => if d.position ≤ c.position then c :: d :: ds else d :: insertDesc c ds

/-- Stable sort by descending position, as in `insertChordsIntoLine`. -/
def sortByPositionDesc (l : List EditableChord) : List EditableChord :=
  l.foldr insertDesc []

/-- The source's `clamp(value, min, max)`. -/
def clamp (value lo hi : Nat) : Nat := Nat.max lo (Nat.min hi value)

/-- One iteration of the insertion loop of `insertChordsIntoLine`. -/
def insertChordTok (maxLen : Nat) (result : List Char) (c : EditableChord) : List Char :=
  let pos := clamp c.position 0 (Nat.max result.length maxLen)
  let needsSpace := decide (pos < result.length) && decide (result.getD pos ' ' ≠ ' ')
  let chordTok := if needsSpace then '[' :: c.chord ++ [']', ' '] else '[' :: c.chord ++ [']']
  result.take pos ++ chordTok ++ result.drop pos

/-- The source's `insertChordsIntoLine` from `editable-song.ts`: sort chords
by descending position and insert each bracketed token, clamping positions
and adding a trailing space when the character at the insertion point is not
already a space. -/
def insertChordsIntoLine (text : List Char) (chords : List EditableChord) : List Char :=
  if chords = [] then text
  else
    let sorted := sortByPositionDesc chords
    let maxLen := if text.length > 0 then text.length + 20 else 40
    sorted.foldl (insertChordTok maxLen) text

/-- The source's `startDirectiveName`. -/
def startDirectiveName (t : List Char) : List Char :=
  if t = "verse".toList then "sov".toList
  else if t = "chorus".toList then "soc".toList
  else if t = "bridge".toList then "sob".toList
  else if t = "tab".toList then "sot".toList
  else if t = "outro".toList then "sot".toList
  else if t = "intro".toList then "sot".toList
  else if t = "grid".toList then "sot".toList
  else "sov".toList

/-- The source's `endDirectiveName`. -/
def endDirectiveName (t : List Char) : List Char :=
  if t = "verse".toList then "eov".toList
  else if t = "chorus".toList then "eoc".toList
  else if t = "bridge".toList then "eob".toList
  else if t = "tab".toList then "eot".toList
  else if t = "outro".toList then "eot".toList
  else if t = "intro".toList then "eot".toList
  else if t = "grid".toList then "eot".toList
  else "eov".toList

/-- The source's `sectionStartDirective`; an absent or empty label is falsy
in `label ? ... : ...`. -/
def sectionStartDirective (t : List Char) (label : Option (List Char)) : List Char :=
  match label with
  | some lb =>
    if lb ≠ [] then '{' :: startDirectiveName t ++ ':' :: ' ' :: lb ++ ['}']
    else '{' :: startDirectiveName t ++ ['}']
  | none => '{' :: startDirectiveName t ++ ['}']

/-- The source's `sectionEndDirective`. -/
def sectionEndDirective (t : List Char) : List Char :=
  '{' :: endDirectiveName t ++ ['}']

/-- The source's `emitSection`: optional start directive, the serialized
lines, optional end directive. -/
def emitSection (out : List (List Char)) (sec : EditableSection) : List (List Char) :=
  let hasDirective := sec.type ≠ "none".toList
  let out1 := if hasDirective then out ++ [sectionStartDirective sec.type sec.label] else out
  let out2 := out1 ++ sec.lines.map (fun line => insertChordsIntoLine line.lyrics line.chords)
  if hasDirective then out2 ++ [sectionEndDirective sec.type] else out2

/-- The per-section loop of `fromEditableSong`, with a blank separator line
between sections but not after the last one. -/
def emitSections (out : List (List Char)) : List EditableSection → List (List Char)
  | [] => out
  | [s] => emitSection out s
  | s :: rest => emitSections (emitSection out s ++ [[]]) rest

/-- The source's `fromEditableSong`: metadata lines (each field only when
truthy for strings, only when defined for the numeric fields), a blank line
after nonempty metadata, then the sections. -/
def fromEditableSong (song : EditableSong) : List Char :=
  let push (out : List (List Char)) (field : Option (List Char)) (nm : List Char) :
      List (List Char) :=
    match field with
    | some v => if v ≠ [] then out ++ ['{' :: nm ++ ':' :: ' ' :: v ++ ['}']] else out
    | none => out
  let pushNum (out : List (List Char)) (field : Option Int) (nm : List Char) :
      List (List Char) :=
    match field with
    | some n => out ++ ['{' :: nm ++ ':' :: ' ' :: intToChars n ++ ['}']]
    | none => out
  let lines : List (List Char) := []
  let lines := push lines song.title ("title".toList)
  let lines := push lines song.subtitle ("subtitle".toList)
  let lines := push lines song.artist ("artist".toList)
  let lines := push lines song.key ("key".toList)
  let lines := pushNum lines song.capo ("capo".toList)
  let lines := pushNum lines song.tempo ("tempo".toList)
  let lines := if lines.length > 0 then lines ++ [[]] else lines
  joinLF (emitSections lines song.sections)


theorem sortByPositionDesc_singleton (c : EditableChord) :
    sortByPositionDesc [c] = [c] := rfl

/-- Claim C8: inserting a chord whose stored position exceeds the line length
never fails; the bracketed token is appended after the whole line (no space
is added since nothing follows it). -/
theorem insertChord_out_of_range (text : List Char) (c : EditableChord)
    (h : text.length < c.position) :
    insertChordsIntoLine text [c] = text ++ '[' :: c.chord ++ [']'] := by
  rw [insertChordsIntoLine]
  rw [if_neg (by simp)]
  rw [sortByPositionDesc_singleton]
  rw [List.foldl_cons, List.foldl_nil]
  rw [insertChordTok]
  have hpos : clamp c.position 0
      (Nat.max text.length (if text.length > 0 then text.length + 20 else 40)) ≥ text.length := by
    unfold clamp
    simp only [Nat.max_def, Nat.min_def]
    split_ifs <;> omega
  have hns : decide (clamp c.position 0
      (Nat.max text.length (if text.length > 0 then text.length + 20 else 40)) <
        text.length) = false := by
    simp only [decide_eq_false_iff_not]
    omega
  simp only [hns, Bool.false_and, Bool.false_eq_true, if_false]
  rw [List.take_of_length_le hpos, List.drop_eq_nil_of_le hpos]
  simp

/-- Witness for claim C8 at the line `Hi` with chord `G` stored at
position 10, reproducing the repository's own test expectation `Hi[G]`. -/
theorem insertChord_out_of_range_witness :
    ("Hi".toList).length < 10 ∧
    insertChordsIntoLine ("Hi".toList) [⟨['1'], ['G'], 10⟩] = "Hi[G]".toList :=
  ⟨by decide, by
    rw [insertChord_out_of_range ("Hi".toList) ⟨['1'], ['G'], 10⟩ (by decide)]
    decide⟩

end Editable

namespace ChordCopy

structure ChordInfo where
  chord : List Char
  position : Nat
deriving DecidableEq, Repr

structure LineChords where
  chords : List ChordInfo
  originalText : List Char
deriving DecidableEq, Repr

/-- Scanner for `extractChordsFromLine`'s regex `\[([^\]]+)\]`, which unlike
the Line Parser's regex consumes no trailing space.  The fuel argument only
serves structural termination and never runs out when it starts at the input
length. -/
def extractAux : Nat → Nat → List Char → List Char × List ChordInfo
  | 0, _, l => (l, [])
  | _ + 1, _, [] => ([], [])
  | fuel + 1, pos, c :: rest =>
    if c = '[' then
      match Parser.splitAtClose rest with
      | some (name, rest2) =>
        if name = [] then
          let p := extractAux fuel (pos + 1) rest
          ('[' :: p.1, p.2)
        else
          let p := extractAux fuel pos rest2
          (p.1, ⟨name, pos⟩ :: p.2)
      | none =>
        let p := extractAux fuel (pos + 1) rest
        ('[' :: p.1, p.2)
    else
      let p := extractAux fuel (pos + 1) rest
      (c :: p.1, p.2)

/-- The source's `extractChordsFromLine`. -/
def extractChordsFromLine (line : List Char) : LineChords :=
  let p := extractAux line.length 0 line
  ⟨p.2, p.1⟩

/-- Stable insertion for this file's own descending sort. -/
def insertDesc (c : ChordInfo) : List ChordInfo → List ChordInfo
  | [] => [c]
  | d :: ds => if d.position ≤ c.position then c :: d :: ds else d :: insertDesc c ds

def sortDesc (l : List ChordInfo) : List ChordInfo := l.foldr insertDesc []

/-- One iteration of this file's `insertChordsIntoLine` loop; positions are
clamped with `Math.min` only. -/
def insertChordTok (result : List Char) (c : ChordInfo) : List Char :=
  let pos := Nat.min c.position result.length
  let needsSpace := decide (pos < result.length) && decide (result.getD pos ' ' ≠ ' ')
  let chordTok := if needsSpace then '[' :: c.chord ++ [']', ' '] else '[' :: c.chord ++ [']']
  result.take pos ++ chordTok ++ result.drop pos

/-- The source's `insertChordsIntoLine` from the chord-copy service. -/
def insertChordsIntoLine (text : List Char) (chords : List ChordInfo) : List Char :=
  if chords = [] then text
  else (sortDesc chords).foldl insertChordTok text

/-- The source's `getSectionDirective`: only the eight exact label-free
directives are recognized, on the trimmed lowercased line; `true` stands for
a start directive. -/
def getSectionDirective (line : List Char) : Option (Bool × List Char) :=
  let t := jsToLower (jsTrim line)
  if t = "{sov}".toList || t = "{start_of_verse}".toList then some (true, "verse".toList)
  else if t = "{soc}".toList || t = "{start_of_chorus}".toList then some (true, "chorus".toList)
  else if t = "{eov}".toList || t = "{end_of_verse}".toList then some (false, "verse".toList)
  else if t = "{eoc}".toList || t = "{end_of_chorus}".toList then some (false, "chorus".toList)
  else none

/-- The test `\[[^\]]+\].test(line)` of the source's `lineHasChords`. -/
def lineHasChordsAux : Nat → List Char → Bool
  | 0, _ => false
  | _ + 1, [] => false
  | fuel + 1, c :: rest =>
    if c = '[' then
      match Parser.splitAtClose rest with
      | some (name, _) => if name = [] then lineHasChordsAux fuel rest else true
      | none => lineHasChordsAux fuel rest
    else lineHasChordsAux fuel rest

def lineHasChords (line : List Char) : Bool :=
  lineHasChordsAux line.length line

/-- The source's `applyChordPattern`. -/
def applyChordPattern (targetLines : List (List Char)) (templateChords : List LineChords) :
    List (List Char) :=
  targetLines.mapIdx (fun index line =>
    if jsTrim line = [] then line
    else if lineHasChords line then line
    else
      match templateChords.get? index with
      | some template =>
        if template.chords = [] then line
        else insertChordsIntoLine (extractChordsFromLine line).originalText template.chords
      | none => line)

/-- Loop state of `copyChordsToSections`. -/
structure CopyState where
  firstVerse : Option (List LineChords)
  firstChorus : Option (List LineChords)
  currentSection : Option (List Char)
  currentLines : List (List Char)
  verseCount : Nat
  chorusCount : Nat
  result : List (List Char)
deriving Repr

def initialCopyState : CopyState := ⟨none, none, none, [], 0, 0, []⟩

/-- One iteration of the `copyChordsToSections` loop body. -/
def copyStep (st : CopyState) (line : List Char) : CopyState :=
  match getSectionDirective line with
  | some (isStart, sect) =>
    if isStart then
      { st with currentSection := some sect, currentLines := [],
                result := st.result ++ [line] }
    else
      let st1 :=
        if st.currentSection = some ("verse".toList) then
          let vc := st.verseCount + 1
          if vc = 1 then
            { st with firstVerse := some (st.currentLines.map extractChordsFromLine),
                      result := st.result ++ st.currentLines, verseCount := vc }
          else
            match st.firstVerse with
            | some fv =>
              { st with result := st.result ++ applyChordPattern st.currentLines fv,
                        verseCount := vc }
            | none => { st with result := st.result ++ st.currentLines, verseCount := vc }
        else if st.currentSection = some ("chorus".toList) then
          let cc := st.chorusCount + 1
          if cc = 1 then
            { st with firstChorus := some (st.currentLines.map extractChordsFromLine),
                      result := st.result ++ st.currentLines, chorusCount := cc }
          else
            match st.firstChorus with
            | some fc =>
              { st with result := st.result ++ applyChordPattern st.currentLines fc,
                        chorusCount := cc }
            | none => { st with result := st.result ++ st.currentLines, chorusCount := cc }
        else st
      { st1 with currentSection := none, currentLines := [], result := st1.result ++ [line] }
  | none =>
    match st.currentSection with
    | some _ => { st with currentLines := st.currentLines ++ [line] }
    | none => { st with result := st.result ++ [line] }

/-- The source's `copyChordsToSections`. -/
def copyChordsToSections (content : List Char) : List Char :=
  let final := (splitLines content).foldl copyStep initialCopyState
  joinLF final.result

end ChordCopy

/-- A physical line: contains no newline and no carriage return, so that
splitting and joining are mutually inverse. -/
def noNL (l : List Char) : Prop := '\n' ∉ l ∧ '\r' ∉ l

instance (l : List Char) : Decidable (noNL l) := by
  unfold noNL
  infer_instance

theorem splitLinesAux_exact :
    ∀ (l : List Char), noNL l → splitLinesAux l.length l = [l] := by
  intro l
  induction l with
  | nil => intro h; rfl
  | cons c rest ih =>
    intro h
    obtain ⟨h1, h2⟩ := h
    have hc1 : c ≠ '\n' := fun hc => h1 (hc ▸ List.mem_cons_self c rest)
    have hc2 : c ≠ '\r' := fun hc => h2 (hc ▸ List.mem_cons_self c rest)
    have hr : noNL rest :=
      ⟨fun hm => h1 (List.mem_cons_of_mem c hm), fun hm => h2 (List.mem_cons_of_mem c hm)⟩
    show splitLinesAux (rest.length + 1) (c :: rest) = [c :: rest]
    rw [splitLinesAux]
    rw [if_neg hc1]
    have : (decide (c = '\r') && decide (rest.head? = some '\n')) = false := by
      simp [hc2]
    rw [this]
    simp only [Bool.false_eq_true, if_false]
    rw [ih hr]

theorem splitLinesAux_append :
    ∀ (l rest : List Char), noNL l →
      splitLinesAux (l ++ '\n' :: rest).length (l ++ '\n' :: rest) = l :: splitLines rest := by
  intro l
  induction l with
  | nil =>
    intro rest _
    show splitLinesAux (rest.length + 1) ('\n' :: rest) = [] :: splitLines rest
    rw [splitLinesAux, if_pos rfl]
    rfl
  | cons c l2 ih =>
    intro rest h
    obtain ⟨h1, h2⟩ := h
    have hc1 : c ≠ '\n' := fun hc => h1 (hc ▸ List.mem_cons_self c l2)
    have hc2 : c ≠ '\r' := fun hc => h2 (hc ▸ List.mem_cons_self c l2)
    have hl2 : noNL l2 :=
      ⟨fun hm => h1 (List.mem_cons_of_mem c hm), fun hm => h2 (List.mem_cons_of_mem c hm)⟩
    show splitLinesAux ((l2 ++ '\n' :: rest).length + 1) (c :: (l2 ++ '\n' :: rest)) =
      (c :: l2) :: splitLines rest
    rw [splitLinesAux]
    rw [if_neg hc1]
    have : (decide (c = '\r') && decide ((l2 ++ '\n' :: rest).head? = some '\n')) = false := by
      simp [hc2]
    rw [this]
    simp only [Bool.false_eq_true, if_false]
    rw [ih rest hl2]

theorem splitLines_single (l : List Char) (h : noNL l) : splitLines l = [l] :=
  splitLinesAux_exact l h

theorem splitLines_append (l rest : List Char) (h : noNL l) :
    splitLines (l ++ '\n' :: rest) = l :: splitLines rest :=
  splitLinesAux_append l rest h

/-- Splitting the LF-join of physical lines recovers exactly those lines. -/
theorem splitLines_joinLF :
    ∀ (ls : List (List Char)), ls ≠ [] → (∀ l ∈ ls, noNL l) →
      splitLines (joinLF ls) = ls := by
  intro ls
  induction ls with
  | nil => intro h; exact absurd rfl h
  | cons l rest ih =>
    intro _ hall
    cases rest with
    | nil => exact splitLines_single l (hall l (List.mem_cons_self l []))
    | cons r2 rest2 =>
      show splitLines (joinLF (l :: r2 :: rest2)) = l :: r2 :: rest2
      have : joinLF (l :: r2 :: rest2) = l ++ '\n' :: joinLF (r2 :: rest2) := rfl
      rw [this, splitLines_append l _ (hall l (List.mem_cons_self l _))]
      rw [ih (by simp) (fun x hx => hall x (List.mem_cons_of_mem l hx))]

namespace ChordCopy

/-- Outside any block, unrecognized lines are pushed through verbatim and no
chord pattern is recorded. -/
theorem copyRun_no_directive :
    ∀ (lines : List (List Char)) (st : CopyState),
      (∀ l ∈ lines, getSectionDirective l = none) → st.currentSection = none →
      ((lines.foldl copyStep st).result = st.result ++ lines ∧
       (lines.foldl copyStep st).currentSection = none ∧
       (lines.foldl copyStep st).firstVerse = st.firstVerse ∧
       (lines.foldl copyStep st).firstChorus = st.firstChorus) := by
  intro lines
  induction lines with
  | nil => intro st _ hcur; exact ⟨(List.append_nil _).symm, hcur, rfl, rfl⟩
  | cons l rest ih =>
    intro st hall hcur
    have hl : getSectionDirective l = none := hall l (List.mem_cons_self l rest)
    have hstep : copyStep st l = { st with result := st.result ++ [l] } := by
      rw [copyStep, hl]
      rw [hcur]
    rw [List.foldl_cons, hstep]
    obtain ⟨hres, hcur2, hfv, hfc⟩ :=
      ih { st with result := st.result ++ [l] }
        (fun x hx => hall x (List.mem_cons_of_mem l hx)) hcur
    rw [hres, hcur2, hfv, hfc]
    simp

/-- Inside a block, unrecognized lines are only collected; the emitted output
does not change. -/
theorem copyRun_in_section :
    ∀ (lines : List (List Char)) (st : CopyState) (s : List Char),
      (∀ l ∈ lines, getSectionDirective l = none) → st.currentSection = some s →
      (lines.foldl copyStep st).result = st.result := by
  intro lines
  induction lines with
  | nil => intro st s _ _; rfl
  | cons l rest ih =>
    intro st s hall hcur
    have hl : getSectionDirective l = none := hall l (List.mem_cons_self l rest)
    have hstep : copyStep st l = { st with currentLines := st.currentLines ++ [l] } := by
      rw [copyStep, hl]
      rw [hcur]
    rw [List.foldl_cons, hstep]
    exact ih _ s (fun x hx => hall x (List.mem_cons_of_mem l hx)) hcur


/-- A top-level segment of a document as `copyChordsToSections` scans it:
either a single line that is not a recognized section directive, or a
complete block: a recognized start directive, unrecognized body lines, and a
recognized end directive. -/
inductive Seg where
  | plain (l : List Char)
  | block (ds sect : List Char) (body : List (List Char)) (de esect : List Char)

def SegOK : Seg → Prop
  | .plain l => getSectionDirective l = none
  | .block ds sect body de esect =>
    getSectionDirective ds = some (true, sect) ∧
    getSectionDirective de = some (false, esect) ∧
    ∀ l ∈ body, getSectionDirective l = none

instance : ∀ (sg : Seg), Decidable (SegOK sg)
  | .plain l => by
    unfold SegOK
    infer_instance
  | .block ds sect body de esect => by
    unfold SegOK
    infer_instance

def segLines : Seg → List (List Char)
  | .plain l => [l]
  | .block ds _ body de _ => ds :: (body ++ [de])

def docLines : List Seg → List (List Char)
  | [] => []
  | sg :: rest => segLines sg ++ docLines rest

/-- The chord-template portion of the loop state. -/
structure TState where
  firstVerse : Option (List LineChords)
  firstChorus : Option (List LineChords)
  verseCount : Nat
  chorusCount : Nat

def projT (st : CopyState) : TState :=
  ⟨st.firstVerse, st.firstChorus, st.verseCount, st.chorusCount⟩

def initialT : TState := ⟨none, none, 0, 0⟩

/-- Reference transform of one complete block body, mirroring the end-directive
branch of the loop: the first verse (chorus) is emitted unchanged and recorded
as the template, later verses (choruses) receive the template's chords. -/
def blockOut (t : TState) (sect : List Char) (body : List (List Char)) :
    List (List Char) × TState :=
  if sect = "verse".toList then
    if t.verseCount + 1 = 1 then
      (body, ⟨some (body.map extractChordsFromLine), t.firstChorus,
        t.verseCount + 1, t.chorusCount⟩)
    else
      match t.firstVerse with
      | some fv => (applyChordPattern body fv,
          ⟨t.firstVerse, t.firstChorus, t.verseCount + 1, t.chorusCount⟩)
      | none => (body, ⟨t.firstVerse, t.firstChorus, t.verseCount + 1, t.chorusCount⟩)
  else if sect = "chorus".toList then
    if t.chorusCount + 1 = 1 then
      (body, ⟨t.firstVerse, some (body.map extractChordsFromLine),
        t.verseCount, t.chorusCount + 1⟩)
    else
      match t.firstChorus with
      | some fc => (applyChordPattern body fc,
          ⟨t.firstVerse, t.firstChorus, t.verseCount, t.chorusCount + 1⟩)
      | none => (body, ⟨t.firstVerse, t.firstChorus, t.verseCount, t.chorusCount + 1⟩)
  else ([], t)

/-- Reference output of the whole document: plain lines and directive lines
verbatim in place, block bodies transformed by `blockOut`. -/
def docOut (t : TState) : List Seg → List (List Char)
  | [] => []
  | Seg.plain l :: rest => l :: docOut t rest
  | Seg.block ds sect body de _ :: rest =>
    ds :: ((blockOut t sect body).1 ++ ([de] ++ docOut (blockOut t sect body).2 rest))

def docT (t : TState) : List Seg → TState
  | [] => t
  | Seg.plain _ :: rest => docT t rest
  | Seg.block _ sect body _ _ :: rest => docT (blockOut t sect body).2 rest

theorem getSectionDirective_sect {l : List Char} {b : Bool} {s : List Char}
    (h : getSectionDirective l = some (b, s)) :
    s = "verse".toList ∨ s = "chorus".toList := by
  rw [getSectionDirective] at h
  split_ifs at h <;> simp only [Option.some.injEq, Prod.mk.injEq] at h
  exacts [Or.inl h.2.symm, Or.inr h.2.symm, Or.inl h.2.symm, Or.inr h.2.symm]

theorem copyRun_collect :
    ∀ (lines : List (List Char)) (st : CopyState) (s : List Char),
      (∀ l ∈ lines, getSectionDirective l = none) → st.currentSection = some s →
      lines.foldl copyStep st =
        ⟨st.firstVerse, st.firstChorus, st.currentSection, st.currentLines ++ lines,
         st.verseCount, st.chorusCount, st.result⟩ := by
  intro lines
  induction lines with
  | nil => intro st s _ _; simp
  | cons l rest ih =>
    intro st s hall hcur
    have hl : getSectionDirective l = none := hall l (List.mem_cons_self l rest)
    have hstep : copyStep st l = { st with currentLines := st.currentLines ++ [l] } := by
      rw [copyStep, hl]
      rw [hcur]
    rw [List.foldl_cons, hstep]
    rw [ih { st with currentLines := st.currentLines ++ [l] } s
      (fun x hx => hall x (List.mem_cons_of_mem l hx)) hcur]
    simp [List.append_assoc]

theorem copyStep_start (st : CopyState) (ds sect : List Char)
    (hds : getSectionDirective ds = some (true, sect)) :
    copyStep st ds =
      ⟨st.firstVerse, st.firstChorus, some sect, [], st.verseCount, st.chorusCount,
       st.result ++ [ds]⟩ := by
  rw [copyStep, hds]
  rfl

theorem copyStep_end (st : CopyState) (de esect s : List Char)
    (hde : getSectionDirective de = some (false, esect))
    (hcur : st.currentSection = some s)
    (hs : s = "verse".toList ∨ s = "chorus".toList) :
    copyStep st de =
      ⟨(blockOut (projT st) s st.currentLines).2.firstVerse,
       (blockOut (projT st) s st.currentLines).2.firstChorus,
       none, [],
       (blockOut (projT st) s st.currentLines).2.verseCount,
       (blockOut (projT st) s st.currentLines).2.chorusCount,
       st.result ++ (blockOut (projT st) s st.currentLines).1 ++ [de]⟩ := by
  rw [copyStep, hde]
  dsimp only
  rw [if_neg (show ¬(false = true) from by decide)]
  rw [show projT st = ⟨st.firstVerse, st.firstChorus, st.verseCount, st.chorusCount⟩
    from rfl]
  rcases hs with hs | hs
  · subst hs
    rw [hcur, if_pos rfl]
    rw [blockOut, if_pos rfl]
    dsimp only
    by_cases hv : st.verseCount + 1 = 1
    · rw [if_pos hv, if_pos hv]
    · rw [if_neg hv, if_neg hv]
      rcases hfv : st.firstVerse with _ | fv <;> rfl
  · subst hs
    rw [hcur]
    rw [if_neg (show ¬(some ("chorus".toList) = some ("verse".toList)) from by decide)]
    rw [if_pos rfl]
    rw [blockOut]
    rw [if_neg (show ¬("chorus".toList = "verse".toList) from by decide)]
    rw [if_pos rfl]
    dsimp only
    by_cases hv : st.chorusCount + 1 = 1
    · rw [if_pos hv, if_pos hv]
    · rw [if_neg hv, if_neg hv]
      rcases hfc : st.firstChorus with _ | fc <;> rfl

/-- Folding one complete block from any state: the start directive, the body and
the end directive are consumed; the directives and the transformed body are
emitted, the template state advances by `blockOut`, and scanning continues
outside any section. -/
theorem copyRun_block (st : CopyState) (ds sect : List Char) (body : List (List Char))
    (de esect : List Char)
    (hds : getSectionDirective ds = some (true, sect))
    (hde : getSectionDirective de = some (false, esect))
    (hbody : ∀ l ∈ body, getSectionDirective l = none)
    (hsect : sect = "verse".toList ∨ sect = "chorus".toList) :
    (ds :: (body ++ [de])).foldl copyStep st =
      ⟨(blockOut (projT st) sect body).2.firstVerse,
       (blockOut (projT st) sect body).2.firstChorus,
       none, [],
       (blockOut (projT st) sect body).2.verseCount,
       (blockOut (projT st) sect body).2.chorusCount,
       st.result ++ [ds] ++ (blockOut (projT st) sect body).1 ++ [de]⟩ := by
  rw [List.foldl_cons, List.foldl_append, List.foldl_cons, List.foldl_nil]
  rw [copyStep_start st ds sect hds]
  set A : CopyState :=
    ⟨st.firstVerse, st.firstChorus, some sect, [], st.verseCount, st.chorusCount,
     st.result ++ [ds]⟩ with hA
  rw [copyRun_collect body A sect hbody rfl]
  rw [copyStep_end ⟨A.firstVerse, A.firstChorus, A.currentSection, A.currentLines ++ body,
    A.verseCount, A.chorusCount, A.result⟩ de esect sect hde rfl hsect]
  rfl

theorem copyRun_segments :
    ∀ (segs : List Seg) (st : CopyState), (∀ sg ∈ segs, SegOK sg) →
      st.currentSection = none →
      (((docLines segs).foldl copyStep st).result = st.result ++ docOut (projT st) segs ∧
       ((docLines segs).foldl copyStep st).currentSection = none ∧
       projT ((docLines segs).foldl copyStep st) = docT (projT st) segs) := by
  intro segs
  induction segs with
  | nil =>
    intro st _ hcur
    refine ⟨?_, hcur, rfl⟩
    rw [show docLines [] = [] from rfl, List.foldl_nil,
      show docOut (projT st) [] = [] from rfl, List.append_nil]
  | cons sg rest ih =>
    intro st hall hcur
    have hsg := hall sg (List.mem_cons_self sg rest)
    have hrest : ∀ x ∈ rest, SegOK x := fun x hx => hall x (List.mem_cons_of_mem sg hx)
    cases sg with
    | plain l =>
      have hl : getSectionDirective l = none := hsg
      rw [show docLines (.plain l :: rest) = l :: docLines rest from rfl, List.foldl_cons]
      have hstep : copyStep st l = { st with result := st.result ++ [l] } := by
        rw [copyStep, hl, hcur]
      rw [hstep]
      obtain ⟨hres, hc2, hp⟩ := ih { st with result := st.result ++ [l] } hrest hcur
      refine ⟨?_, hc2, ?_⟩
      · rw [hres]
        rw [show projT { st with result := st.result ++ [l] } = projT st from rfl]
        rw [show docOut (projT st) (.plain l :: rest) = l :: docOut (projT st) rest from rfl]
        simp
      · rw [hp]
        rfl
    | block ds sect body de esect =>
      obtain ⟨hds, hde, hbody⟩ := hsg
      have hsect : sect = "verse".toList ∨ sect = "chorus".toList :=
        getSectionDirective_sect hds
      rw [show docLines (.block ds sect body de esect :: rest) =
        (ds :: (body ++ [de])) ++ docLines rest from rfl]
      rw [List.foldl_append]
      rw [copyRun_block st ds sect body de esect hds hde hbody hsect]
      obtain ⟨hres, hc2, hp⟩ := ih
        ⟨(blockOut (projT st) sect body).2.firstVerse,
         (blockOut (projT st) sect body).2.firstChorus,
         none, [],
         (blockOut (projT st) sect body).2.verseCount,
         (blockOut (projT st) sect body).2.chorusCount,
         st.result ++ [ds] ++ (blockOut (projT st) sect body).1 ++ [de]⟩ hrest rfl
      refine ⟨?_, hc2, ?_⟩
      · rw [hres]
        rw [show (⟨(blockOut (projT st) sect body).2.firstVerse,
            (blockOut (projT st) sect body).2.firstChorus,
            none, [],
            (blockOut (projT st) sect body).2.verseCount,
            (blockOut (projT st) sect body).2.chorusCount,
            st.result ++ [ds] ++ (blockOut (projT st) sect body).1 ++ [de]⟩ :
            CopyState).result =
          st.result ++ [ds] ++ (blockOut (projT st) sect body).1 ++ [de] from rfl]
        rw [show projT (⟨(blockOut (projT st) sect body).2.firstVerse,
            (blockOut (projT st) sect body).2.firstChorus,
            none, [],
            (blockOut (projT st) sect body).2.verseCount,
            (blockOut (projT st) sect body).2.chorusCount,
            st.result ++ [ds] ++ (blockOut (projT st) sect body).1 ++ [de]⟩ :
            CopyState) = (blockOut (projT st) sect body).2 from rfl]
        rw [show docOut (projT st) (Seg.block ds sect body de esect :: rest) =
          ds :: ((blockOut (projT st) sect body).1 ++
            ([de] ++ docOut (blockOut (projT st) sect body).2 rest)) from rfl]
        simp [List.append_assoc]
      · rw [hp]
        rw [show projT (⟨(blockOut (projT st) sect body).2.firstVerse,
            (blockOut (projT st) sect body).2.firstChorus,
            none, [],
            (blockOut (projT st) sect body).2.verseCount,
            (blockOut (projT st) sect body).2.chorusCount,
            st.result ++ [ds] ++ (blockOut (projT st) sect body).1 ++ [de]⟩ :
            CopyState) = (blockOut (projT st) sect body).2 from rfl]
        rfl

/-- Claim C5, counterexample: output line endings are not byte-for-byte
preserved outside sections; a CRLF input is re-joined with a bare LF. -/
theorem copy_not_byte_identical :
    copyChordsToSections ("a\r\nb".toList) = "a\nb".toList ∧
    copyChordsToSections ("a\r\nb".toList) ≠ "a\r\nb".toList := by
  decide

/-- Claim C5, amended: for every document that decomposes into complete
verse/chorus blocks and individual non-directive lines, the transform rewrites
only the block bodies: every line outside a block, and every directive line,
appears verbatim in place in the output, which is re-joined with LF separators
(so CRLF line endings are normalized but line contents are byte-for-byte).
`docOut` emits each plain line unchanged and each block as its start directive,
its transformed body, and its end directive. -/
theorem copy_outside_text_verbatim (content : List Char) (segs : List Seg)
    (hsplit : splitLines content = docLines segs)
    (hok : ∀ sg ∈ segs, SegOK sg) :
    copyChordsToSections content = joinLF (docOut initialT segs) := by
  rw [copyChordsToSections, hsplit]
  obtain ⟨hres, -, -⟩ := copyRun_segments segs initialCopyState hok rfl
  rw [hres]
  rw [show projT initialCopyState = initialT from rfl]
  rw [show initialCopyState.result = [] from rfl, List.nil_append]

/-- A document with a title line, a blank line, a first verse carrying a chord,
and a second chord-free verse: the segment decomposition of its lines. -/
def C5exampleSegs : List Seg :=
  [Seg.plain ("{title: Test}".toList),
   Seg.plain [],
   Seg.block ("{sov}".toList) ("verse".toList)
     ["[C] Hello world".toList] ("{eov}".toList) ("verse".toList),
   Seg.plain [],
   Seg.block ("{sov}".toList) ("verse".toList)
     ["Hello world".toList] ("{eov}".toList) ("verse".toList)]

def C5exampleContent : List Char :=
  ("{title: Test}\n\n{sov}\n[C] Hello world\n{eov}\n\n{sov}\nHello world\n{eov}").toList

/-- Witness for the amended claim C5 on a document containing two verse blocks:
the title line, the blank separators and all four directive lines pass through
verbatim while the second verse receives the first verse's chords. -/
theorem copy_outside_text_verbatim_witness :
    splitLines C5exampleContent = docLines C5exampleSegs ∧
    (∀ sg ∈ C5exampleSegs, SegOK sg) ∧
    copyChordsToSections C5exampleContent = joinLF (docOut initialT C5exampleSegs) :=
  ⟨by decide, by decide,
   copy_outside_text_verbatim C5exampleContent C5exampleSegs (by decide) (by decide)⟩

/-- Claim C9: when the last recognized start directive is never followed by
another recognized directive, every line collected after it is dropped: the
output is the same as if the input had ended right after that directive. -/
theorem copy_drops_unterminated_block (pre : List (List Char)) (d : List Char)
    (s : List Char) (ls : List (List Char))
    (hd : getSectionDirective d = some (true, s))
    (hls : ∀ l ∈ ls, getSectionDirective l = none)
    (hpre : ∀ l ∈ pre, noNL l) (hdn : noNL d) (hlsn : ∀ l ∈ ls, noNL l) :
    copyChordsToSections (joinLF (pre ++ d :: ls)) =
      copyChordsToSections (joinLF (pre ++ [d])) := by
  have hsplit1 : splitLines (joinLF (pre ++ d :: ls)) = pre ++ d :: ls := by
    apply splitLines_joinLF _ (by simp)
    intro l hl
    rcases List.mem_append.mp hl with h1 | h2
    · exact hpre l h1
    · rcases List.mem_cons.mp h2 with rfl | h3
      · exact hdn
      · exact hlsn l h3
  have hsplit2 : splitLines (joinLF (pre ++ [d])) = pre ++ [d] := by
    apply splitLines_joinLF _ (by simp)
    intro l hl
    rcases List.mem_append.mp hl with h1 | h2
    · exact hpre l h1
    · rcases List.mem_cons.mp h2 with rfl | h3
      · exact hdn
      · simp at h3
  rw [copyChordsToSections, copyChordsToSections, hsplit1, hsplit2]
  rw [List.foldl_append, List.foldl_append]
  set st := pre.foldl copyStep initialCopyState
  have hstep : copyStep st d =
      { st with currentSection := some s, currentLines := [],
                result := st.result ++ [d] } := by
    rw [copyStep, hd]
    simp
  rw [List.foldl_cons, hstep]
  rw [copyRun_in_section ls _ s hls rfl]
  rw [List.foldl_cons, List.foldl_nil, hstep]

/-- Witness for claim C9: with a title line, an unterminated `{sov}` block
whose two lines are dropped. -/
theorem copy_drops_unterminated_block_witness :
    copyChordsToSections ("{title: X}\n{sov}\nA\nB".toList) =
      copyChordsToSections ("{title: X}\n{sov}".toList) := by
  have h := copy_drops_unterminated_block ["{title: X}".toList] ("{sov}".toList)
    ("verse".toList) ["A".toList, "B".toList]
    (by decide) (by decide) (by decide) (by decide) (by decide)
  have h1 : joinLF (["{title: X}".toList] ++ "{sov}".toList :: ["A".toList, "B".toList]) =
      "{title: X}\n{sov}\nA\nB".toList := by decide
  have h2 : joinLF (["{title: X}".toList] ++ ["{sov}".toList]) =
      "{title: X}\n{sov}".toList := by decide
  rw [h1, h2] at h
  exact h

end ChordCopy

namespace ChordCopy

theorem mem_jsTrim {x : Char} {l : List Char} (h : x ∈ l) (hw : isWS x = false) :
    x ∈ jsTrim l := by
  unfold jsTrim
  have step : ∀ (m : List Char), x ∈ m → x ∈ m.dropWhile isWS := by
    intro m hm
    rcases List.mem_append.mp ((List.takeWhile_append_dropWhile (p := isWS) (l := m)) ▸ hm)
      with h1 | h2
    · exact absurd (List.mem_takeWhile_imp h1) (by rw [hw]; exact Bool.false_ne_true)
    · exact h2
  rw [List.mem_reverse]
  apply step
  rw [List.mem_reverse]
  exact step l h

theorem colon_not_copy_directive (line : List Char) (h : ':' ∈ line) :
    getSectionDirective line = none := by
  have ht : ':' ∈ jsToLower (jsTrim line) := by
    unfold jsToLower
    have : lowerChar ':' = ':' := by decide
    rw [← this]
    exact List.mem_map_of_mem lowerChar (mem_jsTrim h (by decide))
  simp only [getSectionDirective]
  split_ifs with h1 h2 h3 h4
  · simp only [Bool.or_eq_true, decide_eq_true_eq] at h1
    rcases h1 with h1 | h1 <;> rw [h1] at ht <;> exact absurd ht (by decide)
  · simp only [Bool.or_eq_true, decide_eq_true_eq] at h2
    rcases h2 with h2 | h2 <;> rw [h2] at ht <;> exact absurd ht (by decide)
  · simp only [Bool.or_eq_true, decide_eq_true_eq] at h3
    rcases h3 with h3 | h3 <;> rw [h3] at ht <;> exact absurd ht (by decide)
  · simp only [Bool.or_eq_true, decide_eq_true_eq] at h4
    rcases h4 with h4 | h4 <;> rw [h4] at ht <;> exact absurd ht (by decide)
  · rfl

/-- Claim C10: a verse start directive carrying a label, such as
`{sov: Verse 2}`, is not recognized by the chord-copy transform: it is not a
section boundary, the document consisting of it and otherwise unrecognized
lines passes through byte-for-byte (joined with LF), and no chord pattern is
recorded from the block it introduces. -/
theorem labeled_directive_not_boundary :
    (∀ v : List Char, getSectionDirective ("\x7bsov: ".toList ++ v ++ ['}']) = none) ∧
    (∀ (v : List Char) (ls : List (List Char)),
      (∀ l ∈ ls, getSectionDirective l = none) →
      noNL ("\x7bsov: ".toList ++ v ++ ['}']) → (∀ l ∈ ls, noNL l) →
      copyChordsToSections (joinLF (("\x7bsov: ".toList ++ v ++ ['}']) :: ls)) =
        joinLF (("\x7bsov: ".toList ++ v ++ ['}']) :: ls) ∧
      ((("\x7bsov: ".toList ++ v ++ ['}']) :: ls).foldl copyStep initialCopyState).firstVerse =
        none ∧
      ((("\x7bsov: ".toList ++ v ++ ['}']) :: ls).foldl copyStep initialCopyState).firstChorus =
        none) := by
  have hgen : ∀ v : List Char, getSectionDirective ("\x7bsov: ".toList ++ v ++ ['}']) = none := by
    intro v
    apply colon_not_copy_directive
    exact List.mem_append.mpr (Or.inl (List.mem_append.mpr (Or.inl (by decide))))
  refine ⟨hgen, ?_⟩
  intro v ls hls hn hlsn
  have hall : ∀ l ∈ ("\x7bsov: ".toList ++ v ++ ['}']) :: ls, getSectionDirective l = none := by
    intro l hl
    rcases List.mem_cons.mp hl with rfl | h2
    · exact hgen v
    · exact hls l h2
  have hsplit : splitLines (joinLF (("\x7bsov: ".toList ++ v ++ ['}']) :: ls)) =
      ("\x7bsov: ".toList ++ v ++ ['}']) :: ls := by
    apply splitLines_joinLF _ (by simp)
    intro l hl
    rcases List.mem_cons.mp hl with rfl | h2
    · exact hn
    · exact hlsn l h2
  obtain ⟨hres, -, hfv, hfc⟩ :=
    copyRun_no_directive (("\x7bsov: ".toList ++ v ++ ['}']) :: ls) initialCopyState hall rfl
  refine ⟨?_, hfv, hfc⟩
  rw [copyChordsToSections, hsplit, hres]
  rfl

/-- Witness for claim C10 at the concrete line `{sov: Verse 2}` followed by
two lyric lines. -/
theorem labeled_directive_not_boundary_witness :
    getSectionDirective ("{sov: Verse 2}".toList) = none ∧
    copyChordsToSections ("{sov: Verse 2}\nA\nB".toList) = "{sov: Verse 2}\nA\nB".toList := by
  have h1 := labeled_directive_not_boundary.1 ("Verse 2".toList)
  have h2 := (labeled_directive_not_boundary.2 ("Verse 2".toList)
    ["A".toList, "B".toList] (by decide) (by decide) (by decide)).1
  constructor
  · have : "\x7bsov: ".toList ++ "Verse 2".toList ++ ['}'] = "{sov: Verse 2}".toList := by decide
    rwa [this] at h1
  · have : joinLF (("\x7bsov: ".toList ++ "Verse 2".toList ++ ['}']) ::
        ["A".toList, "B".toList]) = "{sov: Verse 2}\nA\nB".toList := by decide
    rwa [this] at h2

end ChordCopy

namespace Parser

/-- The chord names produced by the line scanner depend neither on the fuel
(once sufficient) nor on the position counter. -/
theorem parseLineAux_names :
    ∀ (f1 : Nat) (f2 p1 p2 : Nat) (l : List Char), l.length ≤ f1 → l.length ≤ f2 →
      ((parseLineAux f1 p1 l).2).map (fun c => c.chord) =
        ((parseLineAux f2 p2 l).2).map (fun c => c.chord) := by
  intro f1
  induction f1 with
  | zero =>
    intro f2 p1 p2 l h1 _
    have : l = [] := List.eq_nil_of_length_eq_zero (Nat.le_zero.mp h1)
    subst this
    cases f2 <;> rfl
  | succ f ih =>
    intro f2 p1 p2 l h1 h2
    cases l with
    | nil => cases f2 <;> rfl
    | cons c rest =>
      cases f2 with
      | zero => simp at h2
      | succ g =>
        simp only [List.length_cons, Nat.add_le_add_iff_right] at h1 h2
        rw [parseLineAux, parseLineAux]
        by_cases hc : c = '['
        · rw [if_pos hc, if_pos hc]
          rcases hsc : splitAtClose rest with _ | ⟨name, rest2⟩
          · simp only
            exact ih g (p1 + 1) (p2 + 1) rest h1 h2
          · have hlen := splitAtClose_length hsc
            have hes := eatSpace_length_le rest2
            simp only
            by_cases hname : name = []
            · rw [if_pos hname, if_pos hname]
              simp only
              exact ih g (p1 + 1) (p2 + 1) rest h1 h2
            · rw [if_neg hname, if_neg hname]
              simp only [List.map_cons, List.cons.injEq, true_and]
              exact ih g p1 p2 (eatSpace rest2) (by omega) (by omega)
        · rw [if_neg hc, if_neg hc]
          simp only
          exact ih g (p1 + 1) (p2 + 1) rest h1 h2

/-- Skipping one leading space does not change the chord names found. -/
theorem parseLineAux_names_eatSpace (f : Nat) (p : Nat) (l : List Char)
    (h : l.length ≤ f) :
    ((parseLineAux f p (eatSpace l)).2).map (fun c => c.chord) =
      ((parseLineAux f p l).2).map (fun c => c.chord) := by
  cases l with
  | nil => rfl
  | cons c rest =>
    by_cases hc : c = ' '
    · subst hc
      rw [eatSpace, if_pos rfl]
      cases f with
      | zero => simp at h
      | succ g =>
        conv_rhs => rw [parseLineAux]
        rw [if_neg (by decide)]
        simp only [List.length_cons, Nat.add_le_add_iff_right] at h
        simp only
        exact parseLineAux_names (g + 1) g p (p + 1) rest (by omega) h
    · rw [eatSpace, if_neg hc]
end Parser

namespace ChordCopy

/-- The two bracket scanners find the same chord names in the same order. -/
theorem extractAux_names :
    ∀ (f : Nat) (p : Nat) (l : List Char), l.length ≤ f →
      ((extractAux f p l).2).map (fun c => c.chord) =
        ((Parser.parseLineAux f p l).2).map (fun c => c.chord) := by
  intro f
  induction f with
  | zero =>
    intro p l h
    have : l = [] := List.eq_nil_of_length_eq_zero (Nat.le_zero.mp h)
    subst this
    rfl
  | succ f ih =>
    intro p l h
    cases l with
    | nil => rfl
    | cons c rest =>
      simp only [List.length_cons, Nat.add_le_add_iff_right] at h
      rw [extractAux, Parser.parseLineAux]
      by_cases hc : c = '['
      · rw [if_pos hc, if_pos hc]
        rcases hsc : Parser.splitAtClose rest with _ | ⟨name, rest2⟩
        · simp only
          exact ih (p + 1) rest h
        · have hlen := Parser.splitAtClose_length hsc
          have hes := Parser.eatSpace_length_le rest2
          simp only
          by_cases hname : name = []
          · rw [if_pos hname, if_pos hname]
            simp only
            exact ih (p + 1) rest h
          · rw [if_neg hname, if_neg hname]
            simp only [List.map_cons, List.cons.injEq, true_and]
            rw [ih p rest2 (by omega)]
            exact (Parser.parseLineAux_names_eatSpace f p rest2 (by omega)).symm
      · rw [if_neg hc, if_neg hc]
        simp only
        exact ih (p + 1) rest h

/-- Claim C4, counterexample: on `"[C] [G]a"` the Line Parser eats the space
after `[C]`, so the second chord sits at position 0 with residual lyrics
`"a"`, while `extractChordsFromLine` keeps the space, putting `G` at
position 1 with residual text `" a"`. -/
theorem extract_differs_from_parseLine :
    (Parser.parseLine ("[C] [G]a".toList)).chords =
      [⟨['C'], 0⟩, ⟨['G'], 0⟩] ∧
    (extractChordsFromLine ("[C] [G]a".toList)).chords =
      [⟨['C'], 0⟩, ⟨['G'], 1⟩] ∧
    (Parser.parseLine ("[C] [G]a".toList)).lyrics = ['a'] ∧
    (extractChordsFromLine ("[C] [G]a".toList)).originalText = [' ', 'a'] ∧
    (extractChordsFromLine ("[C] [G]a".toList)).chords.map (fun c => c.position) ≠
      (Parser.parseLine ("[C] [G]a".toList)).chords.map (fun c => c.position) ∧
    (extractChordsFromLine ("[C] [G]a".toList)).originalText ≠
      (Parser.parseLine ("[C] [G]a".toList)).lyrics := by
  decide

/-- Claim C4, amended: for every raw line, `extractChordsFromLine` finds
exactly the chord texts the Line Parser finds, in the same order; the
recorded positions and the residual plain text can differ, by exactly the
trailing spaces the Line Parser consumes after chord tokens. -/
theorem extract_chord_names_agree (line : List Char) :
    (extractChordsFromLine line).chords.map (fun c => c.chord) =
      (Parser.parseLine line).chords.map (fun c => c.chord) :=
  extractAux_names line.length 0 line (Nat.le_refl _)

end ChordCopy

namespace Parser

/-- A line the document parser treats as lyric content: not a comment, not a
directive, not blank. -/
def plainLine (l : List Char) : Prop :=
  (jsTrim l).head? ≠ some '#' ∧ parseDirective (jsTrim l) = none ∧ jsTrim l ≠ []

instance (l : List Char) : Decidable (plainLine l) := by
  unfold plainLine
  infer_instance

theorem processLine_plain (st : ParseState) (l : List Char) (h : plainLine l) :
    processLine st l =
      { st with current := { st.current with lines := st.current.lines ++ [parseLine l] } } := by
  obtain ⟨h1, h2, h3⟩ := h
  rw [processLine]
  rw [if_neg h1, h2]
  rw [if_neg h3]

/-- Running the scanner over plain lines only appends their parses to the
current section. -/
theorem run_plain :
    ∀ (ls : List (List Char)) (st : ParseState), (∀ l ∈ ls, plainLine l) →
      ls.foldl processLine st =
        { st with current := { st.current with lines := st.current.lines ++ ls.map parseLine } } := by
  intro ls
  induction ls with
  | nil => intro st _; simp
  | cons l rest ih =>
    intro st hall
    rw [List.foldl_cons, processLine_plain st l (hall l (List.mem_cons_self l rest))]
    rw [ih _ (fun x hx => hall x (List.mem_cons_of_mem l hx))]
    simp

theorem processLine_keeps_sections_nonempty (st : ParseState) (l : List Char)
    (h : ∀ sec ∈ st.song.sections, sec.lines ≠ []) :
    ∀ sec ∈ (processLine st l).song.sections, sec.lines ≠ [] := by
  have hpush : ∀ sec ∈ (if st.current.lines ≠ [] then st.song.sections ++ [st.current]
      else st.song.sections), sec.lines ≠ [] := by
    split_ifs with hg
    · intro sec hsec
      rcases List.mem_append.mp hsec with h1 | h2
      · exact h sec h1
      · simp only [List.mem_singleton] at h2
        rw [h2]
        exact hg
    · exact h
  by_cases hcomment : (jsTrim l).head? = some '#'
  · rw [processLine, if_pos hcomment]; exact h
  · rw [processLine, if_neg hcomment]
    rcases hd : parseDirective (jsTrim l) with _ | ⟨nm, val⟩
    · simp only
      by_cases hempty : jsTrim l = []
      · rw [if_pos hempty]
        split_ifs <;> exact h
      · rw [if_neg hempty]; exact h
    · simp only
      by_cases e1 : normalizeDirective nm = "title".toList
      · rw [if_pos e1]; exact h
      · rw [if_neg e1]
        by_cases e2 : normalizeDirective nm = "subtitle".toList
        · rw [if_pos e2]; exact h
        · rw [if_neg e2]
          by_cases e3 : normalizeDirective nm = "artist".toList
          · rw [if_pos e3]; exact h
          · rw [if_neg e3]
            by_cases e4 : normalizeDirective nm = "key".toList
            · rw [if_pos e4]; exact h
            · rw [if_neg e4]
              by_cases e5 : normalizeDirective nm = "capo".toList
              · rw [if_pos e5]; exact h
              · rw [if_neg e5]
                by_cases e6 : normalizeDirective nm = "tempo".toList
                · rw [if_pos e6]; exact h
                · rw [if_neg e6]
                  by_cases e7 : ("start_of_".toList).isPrefixOf (normalizeDirective nm) = true
                  · rw [if_pos e7]; exact hpush
                  · rw [if_neg e7]
                    by_cases e8 : ("end_of_".toList).isPrefixOf (normalizeDirective nm) = true
                    · rw [if_pos e8]; exact hpush
                    · rw [if_neg e8]; exact h

/-- Claim C6: every section `parseChordPro` emits contains at least one line,
and an opened but never closed section still has its accumulated lines
flushed at end of input: parsing any text of the form
(arbitrary physical lines, one `start_of_` directive line, one or more plain
lyric lines) ends with a final section of that directive's type and label
holding exactly the parses of those lines. -/
theorem parse_section_balance :
    (∀ content : List Char, ∀ sec ∈ (parseChordPro content).sections, sec.lines ≠ []) ∧
    (∀ (pre : List (List Char)) (d nm val : List Char) (ls : List (List Char)),
      (∀ l ∈ pre, noNL l) → noNL d → (∀ l ∈ ls, noNL l) →
      (jsTrim d).head? ≠ some '#' →
      parseDirective (jsTrim d) = some (nm, val) →
      ("start_of_".toList).isPrefixOf (normalizeDirective nm) = true →
      (∀ l ∈ ls, plainLine l) → ls ≠ [] →
      (parseChordPro (joinLF (pre ++ d :: ls))).sections.getLast? =
        some ⟨(normalizeDirective nm).drop 9,
              if val = [] then none else some val, ls.map parseLine⟩) := by
  constructor
  · intro content
    have hrun : ∀ (lines : List (List Char)) (st : ParseState),
        (∀ sec ∈ st.song.sections, sec.lines ≠ []) →
        ∀ sec ∈ (lines.foldl processLine st).song.sections, sec.lines ≠ [] := by
      intro lines
      induction lines with
      | nil => intro st h; exact h
      | cons l rest ih =>
        intro st h
        rw [List.foldl_cons]
        exact ih _ (processLine_keeps_sections_nonempty st l h)
    rw [parseChordPro]
    have hfin := hrun (splitLines content) initialState
      (by intro sec hsec; simp [initialState, emptySong] at hsec)
    split_ifs with hflush
    · intro sec hsec
      rcases List.mem_append.mp hsec with h1 | h2
      · exact hfin sec h1
      · simp only [List.mem_singleton] at h2
        rw [h2]
        exact hflush
    · exact hfin
  · intro pre d nm val ls hpre hdn hlsn hdc hdd hdpfx hplain hne
    have hsplit : splitLines (joinLF (pre ++ d :: ls)) = pre ++ d :: ls := by
      apply splitLines_joinLF _ (by simp)
      intro l hl
      rcases List.mem_append.mp hl with h1 | h2
      · exact hpre l h1
      · rcases List.mem_cons.mp h2 with rfl | h3
        · exact hdn
        · exact hlsn l h3
    rw [parseChordPro, hsplit, List.foldl_append]
    set st := pre.foldl processLine initialState
    set n := normalizeDirective nm with hn
    have hne1 : n ≠ "title".toList := by
      intro he; rw [he] at hdpfx; exact absurd hdpfx (by decide)
    have hne2 : n ≠ "subtitle".toList := by
      intro he; rw [he] at hdpfx; exact absurd hdpfx (by decide)
    have hne3 : n ≠ "artist".toList := by
      intro he; rw [he] at hdpfx; exact absurd hdpfx (by decide)
    have hne4 : n ≠ "key".toList := by
      intro he; rw [he] at hdpfx; exact absurd hdpfx (by decide)
    have hne5 : n ≠ "capo".toList := by
      intro he; rw [he] at hdpfx; exact absurd hdpfx (by decide)
    have hne6 : n ≠ "tempo".toList := by
      intro he; rw [he] at hdpfx; exact absurd hdpfx (by decide)
    have hstep : processLine st d =
        { song := { st.song with sections :=
            if st.current.lines ≠ [] then st.song.sections ++ [st.current]
            else st.song.sections },
          current := ⟨n.drop 9, if val = [] then none else some val, []⟩,
          inSection := true } := by
      rw [processLine]
      rw [if_neg hdc, hdd]
      simp only [← hn]
      rw [if_neg hne1, if_neg hne2, if_neg hne3, if_neg hne4, if_neg hne5, if_neg hne6]
      rw [if_pos hdpfx]
    rw [List.foldl_cons, hstep]
    rw [run_plain ls _ hplain]
    simp only [List.nil_append]
    have hmapne : ls.map parseLine ≠ [] := by
      intro hmap
      exact hne (List.map_eq_nil_iff.mp hmap)
    rw [if_pos (by simpa using hmapne)]
    simp

/-- Witness for claim C6 at the spec's own example `{sov}\n[C]Line`: one
verse section containing exactly that line, and all emitted sections
nonempty. -/
theorem parse_section_balance_witness :
    (parseChordPro ("{sov}\n[C]Line".toList)).sections.getLast? =
      some ⟨"verse".toList, none, [parseLine ("[C]Line".toList)]⟩ ∧
    (∀ sec ∈ (parseChordPro ("{sov}\n[C]Line".toList)).sections, sec.lines ≠ []) := by
  constructor
  · have h := parse_section_balance.2 [] ("{sov}".toList) ("sov".toList) [] ["[C]Line".toList]
      (by intro l hl; simp at hl) (by decide) (by decide) (by decide) (by decide) (by decide)
      (by decide) (by decide)
    have h1 : joinLF ([] ++ "{sov}".toList :: ["[C]Line".toList]) = "{sov}\n[C]Line".toList := by
      decide
    rw [h1] at h
    rw [h]
    decide
  · exact parse_section_balance.1 _

end Parser

namespace RoundTrip

open Parser Editable

/-- Lower-bounded strictly increasing chord positions. -/
def posStrict : Nat → List EditableChord → Prop
  | _, [] => True
  | lo, c :: cs => lo ≤ c.position ∧ posStrict (c.position + 1) cs

instance instPosStrictDec : ∀ (lo : Nat) (cs : List EditableChord), Decidable (posStrict lo cs)
  | _, [] => .isTrue trivial
  | lo, c :: cs =>
    haveI := instPosStrictDec (c.position + 1) cs
    inferInstanceAs (Decidable (lo ≤ c.position ∧ posStrict (c.position + 1) cs))

def posBounded (hi : Nat) (cs : List EditableChord) : Prop :=
  ∀ c ∈ cs, c.position ≤ hi

instance (hi : Nat) (cs : List EditableChord) : Decidable (posBounded hi cs) := by
  unfold posBounded
  infer_instance

theorem posStrict_mono {lo lo2 : Nat} {cs : List EditableChord} (h : posStrict lo cs)
    (hle : lo2 ≤ lo) : posStrict lo2 cs := by
  cases cs with
  | nil => trivial
  | cons c cs => exact ⟨Nat.le_trans hle h.1, h.2⟩

theorem posStrict_all {lo : Nat} {cs : List EditableChord} (h : posStrict lo cs) :
    ∀ c ∈ cs, lo ≤ c.position := by
  induction cs generalizing lo with
  | nil => intro c hc; simp at hc
  | cons d ds ih =>
    intro c hc
    rcases List.mem_cons.mp hc with rfl | hc2
    · exact h.1
    · exact Nat.le_trans h.1 (Nat.le_trans (Nat.le_succ _) (ih h.2 c hc2))

/-- Reference serialization of one line in ascending chord order; equal to
the source's descending-insertion `insertChordsIntoLine` on strictly
ascending in-range chords. -/
def emitLine (base : Nat) (lyr : List Char) : List EditableChord → List Char
  | [] => lyr
  | c :: cs =>
    let k := c.position - base
    lyr.take k ++ '[' :: c.chord ++ [']'] ++
      (if lyr.drop k = [] ∨ (lyr.drop k).head? = some ' ' then [] else [' ']) ++
      emitLine c.position (lyr.drop k) cs

/-- Splitting off an untouched prefix of the lyrics. -/
theorem emitLine_split (cs : List EditableChord) (base k : Nat) (lyr : List Char)
    (hk : k ≤ lyr.length) (hcs : posStrict (base + k) cs) :
    emitLine base lyr cs = lyr.take k ++ emitLine (base + k) (lyr.drop k) cs := by
  cases cs with
  | nil =>
    rw [emitLine, emitLine]
    exact (List.take_append_drop k lyr).symm
  | cons c cs2 =>
    have hc := hcs.1
    rw [emitLine, emitLine]
    have h2 : List.drop (c.position - (base + k)) (List.drop k lyr) =
        List.drop (c.position - base) lyr := by
      rw [List.drop_drop]
      congr 1
      omega
    have h3 : List.take (c.position - base) lyr =
        List.take k lyr ++ List.take (c.position - (base + k)) (List.drop k lyr) := by
      have h1 : c.position - base = k + (c.position - (base + k)) := by omega
      rw [h1, List.take_add]
    rw [h2, h3]
    simp [List.append_assoc]

theorem mem_insertDesc {x c : EditableChord} :
    ∀ {L : List EditableChord}, x ∈ Editable.insertDesc c L → x = c ∨ x ∈ L := by
  intro L
  induction L with
  | nil => intro h; simp [Editable.insertDesc] at h; exact Or.inl h
  | cons d ds ih =>
    intro h
    rw [Editable.insertDesc] at h
    split_ifs at h with hle
    · rcases List.mem_cons.mp h with rfl | h2
      · exact Or.inl rfl
      · exact Or.inr h2
    · rcases List.mem_cons.mp h with rfl | h2
      · exact Or.inr (List.mem_cons_self _ _)
      · rcases ih h2 with h3 | h3
        · exact Or.inl h3
        · exact Or.inr (List.mem_cons_of_mem d h3)

theorem mem_sortDesc {x : EditableChord} :
    ∀ {cs : List EditableChord}, x ∈ Editable.sortByPositionDesc cs → x ∈ cs := by
  intro cs
  induction cs with
  | nil => intro h; exact h
  | cons c cs ih =>
    intro h
    rcases mem_insertDesc h with rfl | h2
    · exact List.mem_cons_self _ _
    · exact List.mem_cons_of_mem c (ih h2)

theorem insertDesc_append {c : EditableChord} :
    ∀ {L : List EditableChord}, (∀ d ∈ L, c.position < d.position) →
      Editable.insertDesc c L = L ++ [c] := by
  intro L
  induction L with
  | nil => intro _; rfl
  | cons d ds ih =>
    intro h
    rw [Editable.insertDesc]
    rw [if_neg (by have := h d (List.mem_cons_self d ds); omega)]
    rw [ih (fun e he => h e (List.mem_cons_of_mem d he))]
    rfl

theorem sortDesc_of_strict {lo : Nat} :
    ∀ {cs : List EditableChord}, posStrict lo cs →
      Editable.sortByPositionDesc cs = cs.reverse := by
  intro cs
  induction cs generalizing lo with
  | nil => intro _; rfl
  | cons c cs ih =>
    intro h
    show Editable.insertDesc c (Editable.sortByPositionDesc cs) = (c :: cs).reverse
    rw [ih h.2]
    rw [insertDesc_append (fun d hd => by
      have := posStrict_all h.2 d (List.mem_reverse.mp hd)
      omega)]
    rw [List.reverse_cons]

theorem insertChords_cons (lyr : List Char) (c : EditableChord)
    (cs : List EditableChord) (h : ∀ d ∈ cs, c.position < d.position) :
    Editable.insertChordsIntoLine lyr (c :: cs) =
      Editable.insertChordTok (if lyr.length > 0 then lyr.length + 20 else 40)
        (Editable.insertChordsIntoLine lyr cs) c := by
  have hsort : Editable.sortByPositionDesc (c :: cs) =
      Editable.sortByPositionDesc cs ++ [c] := by
    show Editable.insertDesc c (Editable.sortByPositionDesc cs) = _
    exact insertDesc_append (fun d hd => h d (mem_sortDesc hd))
  cases cs with
  | nil =>
    have hne : (c :: [] : List EditableChord) ≠ [] := by simp
    simp only [Editable.insertChordsIntoLine, if_neg hne, if_pos rfl]
    rfl
  | cons d ds =>
    have hne : (c :: d :: ds : List EditableChord) ≠ [] := by simp
    have hne2 : (d :: ds : List EditableChord) ≠ [] := by simp
    simp only [Editable.insertChordsIntoLine, if_neg hne, if_neg hne2, hsort,
      List.foldl_append, List.foldl_cons, List.foldl_nil]

theorem emitLine_length_ge :
    ∀ (cs : List EditableChord) (base : Nat) (lyr : List Char),
      lyr.length ≤ (emitLine base lyr cs).length := by
  intro cs
  induction cs with
  | nil => intro base lyr; exact Nat.le_refl _
  | cons c cs ih =>
    intro base lyr
    rw [emitLine]
    simp only [List.length_append, List.length_cons, List.length_take]
    have h2 := ih c.position (List.drop (c.position - base) lyr)
    simp only [List.length_drop] at h2
    omega

theorem getD_append_self (A B : List Char) (d : Char) :
    (A ++ B).getD A.length d = B.getD 0 d := by
  induction A with
  | nil => rfl
  | cons a A ih => simpa using ih

theorem insertTok_emit (lyr : List Char) (c : EditableChord) (cs : List EditableChord)
    (hc : c.position ≤ lyr.length) (hcs : posStrict (c.position + 1) cs)
    (hb : posBounded lyr.length cs) (maxLen : Nat) :
    Editable.insertChordTok maxLen (emitLine 0 lyr cs) c = emitLine 0 lyr (c :: cs) := by
  rcases hd : lyr.drop c.position with _ | ⟨x, xs⟩
  · have hk : c.position = lyr.length := by
      have := congrArg List.length hd
      simp only [List.length_drop, List.length_nil] at this
      omega
    have hcnil : cs = [] := by
      cases cs with
      | nil => rfl
      | cons d ds =>
        have h1 := hcs.1
        have h2 := hb d (List.mem_cons_self d ds)
        omega
    subst hcnil
    rw [show emitLine 0 lyr ([] : List EditableChord) = lyr from rfl]
    simp only [Editable.insertChordTok]
    have hpos : Editable.clamp c.position 0 (Nat.max lyr.length maxLen) = c.position := by
      unfold Editable.clamp
      simp only [Nat.max_def, Nat.min_def]
      split_ifs <;> omega
    rw [hpos]
    have hlt : ¬(c.position < lyr.length) := by omega
    rw [decide_eq_false hlt]
    simp only [Bool.false_and]
    rw [List.take_of_length_le (by omega), List.drop_eq_nil_of_le (by omega)]
    rw [emitLine]
    simp only [Nat.sub_zero, hd]
    rw [List.take_of_length_le (by omega)]
    simp [emitLine]
  · have hsplit : emitLine 0 lyr cs =
        lyr.take c.position ++ emitLine c.position (lyr.drop c.position) cs := by
      have hm : posStrict (0 + c.position) cs := by
        rw [Nat.zero_add]
        exact posStrict_mono hcs (Nat.le_succ _)
      simpa using emitLine_split cs 0 c.position lyr hc hm
    have hAlen : (lyr.take c.position).length = c.position := by
      simp only [List.length_take]
      omega
    have hBlen : (lyr.drop c.position).length ≤
        (emitLine c.position (lyr.drop c.position) cs).length :=
      emitLine_length_ge cs c.position _
    have hBhead : (emitLine c.position (lyr.drop c.position) cs).getD 0 ' ' = x := by
      cases cs with
      | nil => rw [emitLine, hd]; rfl
      | cons e es =>
        rw [emitLine, hd]
        have h1 : 1 ≤ e.position - c.position := by
          have := hcs.1
          omega
        rcases hm : e.position - c.position with _ | m
        · omega
        · simp
    have hBne : emitLine c.position (lyr.drop c.position) cs ≠ [] := by
      cases cs with
      | nil => rw [emitLine, hd]; simp
      | cons e es =>
        rw [emitLine, hd]
        have h1 : 1 ≤ e.position - c.position := by
          have := hcs.1
          omega
        rcases hm : e.position - c.position with _ | m
        · omega
        · simp
    have hRlen : lyr.length ≤
        (lyr.take c.position ++ emitLine c.position (lyr.drop c.position) cs).length := by
      simp only [List.length_append, hAlen]
      simp only [List.length_drop] at hBlen
      omega
    rw [hsplit]
    simp only [Editable.insertChordTok]
    have hpos : Editable.clamp c.position 0
        (Nat.max (lyr.take c.position ++
          emitLine c.position (lyr.drop c.position) cs).length maxLen) = c.position := by
      unfold Editable.clamp
      simp only [Nat.max_def, Nat.min_def]
      split_ifs <;> omega
    rw [hpos]
    have hlt : c.position <
        (lyr.take c.position ++ emitLine c.position (lyr.drop c.position) cs).length := by
      simp only [List.length_append, hAlen]
      have : 0 < (emitLine c.position (lyr.drop c.position) cs).length :=
        List.length_pos.mpr hBne
      omega
    have htake : (lyr.take c.position ++
        emitLine c.position (lyr.drop c.position) cs).take c.position = lyr.take c.position := by
      have h0 := List.take_left (lyr.take c.position)
        (emitLine c.position (lyr.drop c.position) cs)
      rwa [hAlen] at h0
    have hdrop : (lyr.take c.position ++
        emitLine c.position (lyr.drop c.position) cs).drop c.position =
        emitLine c.position (lyr.drop c.position) cs := by
      have h0 := List.drop_left (lyr.take c.position)
        (emitLine c.position (lyr.drop c.position) cs)
      rwa [hAlen] at h0
    have hgetD : (lyr.take c.position ++
        emitLine c.position (lyr.drop c.position) cs).getD c.position ' ' = x := by
      have h0 := getD_append_self (lyr.take c.position)
        (emitLine c.position (lyr.drop c.position) cs) ' '
      rw [hAlen] at h0
      rw [h0, hBhead]
    rw [decide_eq_true hlt]
    simp only [Bool.true_and, hgetD, htake, hdrop]
    conv_rhs => rw [emitLine]
    simp only [Nat.sub_zero, hd]
    by_cases hx : x = ' '
    · subst hx
      simp [List.append_assoc]
    · simp [hx, List.append_assoc]

/-- The source's descending insertion equals the ascending reference
emitter on strictly ascending, in-range chord lists. -/
theorem insertChords_eq_emitLine :
    ∀ (cs : List EditableChord) (lyr : List Char),
      posStrict 0 cs → posBounded lyr.length cs →
      Editable.insertChordsIntoLine lyr cs = emitLine 0 lyr cs := by
  intro cs
  induction cs with
  | nil =>
    intro lyr _ _
    rw [Editable.insertChordsIntoLine, if_pos rfl, emitLine]
  | cons c cs ih =>
    intro lyr h hb
    rw [insertChords_cons lyr c cs (fun d hd => by
      have := posStrict_all h.2 d hd
      omega)]
    rw [ih lyr (posStrict_mono h.2 (Nat.zero_le _))
      (fun d hd => hb d (List.mem_cons_of_mem c hd))]
    exact insertTok_emit lyr c cs (hb c (List.mem_cons_self c cs)) h.2
      (fun d hd => hb d (List.mem_cons_of_mem c hd)) _

end RoundTrip

namespace RoundTrip

open Parser Editable

/-- A bracket-free string scans to itself with no chords. -/
theorem parse_clean :
    ∀ (lyr : List Char) (fuel p : Nat), '[' ∉ lyr →
      Parser.parseLineAux fuel p lyr = (lyr, []) := by
  intro lyr
  induction lyr with
  | nil => intro fuel p _; cases fuel <;> rfl
  | cons c rest ih =>
    intro fuel p h
    have hc : c ≠ '[' := fun he => h (he ▸ List.mem_cons_self c rest)
    have hrest : '[' ∉ rest := fun hm => h (List.mem_cons_of_mem c hm)
    cases fuel with
    | zero => rfl
    | succ f =>
      rw [Parser.parseLineAux, if_neg hc, ih f (p + 1) hrest]

/-- Scanning past a bracket-free prefix. -/
theorem parse_skip_clean :
    ∀ (pre : List Char) (fuel p : Nat) (rest : List Char), '[' ∉ pre →
      pre.length ≤ fuel →
      Parser.parseLineAux fuel p (pre ++ rest) =
        (pre ++ (Parser.parseLineAux (fuel - pre.length) (p + pre.length) rest).1,
         (Parser.parseLineAux (fuel - pre.length) (p + pre.length) rest).2) := by
  intro pre
  induction pre with
  | nil => intro fuel p rest _ _; simp
  | cons c pre2 ih =>
    intro fuel p rest h hf
    have hc : c ≠ '[' := fun he => h (he ▸ List.mem_cons_self c pre2)
    have hpre2 : '[' ∉ pre2 := fun hm => h (List.mem_cons_of_mem c hm)
    cases fuel with
    | zero => simp at hf
    | succ f =>
      simp only [List.length_cons, Nat.add_le_add_iff_right] at hf
      rw [List.cons_append, Parser.parseLineAux, if_neg hc, ih f (p + 1) rest hpre2 hf]
      have e1 : f - pre2.length = f + 1 - (pre2.length + 1) := by omega
      have e2 : p + 1 + pre2.length = p + (pre2.length + 1) := by omega
      rw [e1, e2]
      rfl

/-- The bracket scanner finds the first closing bracket after a
bracket-free chord text. -/
theorem splitAtClose_token :
    ∀ (text rest : List Char), ']' ∉ text →
      Parser.splitAtClose (text ++ ']' :: rest) = some (text, rest) := by
  intro text
  induction text with
  | nil => intro rest _; rw [List.nil_append, Parser.splitAtClose, if_pos rfl]
  | cons c t ih =>
    intro rest h
    have hc : c ≠ ']' := fun he => h (he ▸ List.mem_cons_self c t)
    have ht : ']' ∉ t := fun hm => h (List.mem_cons_of_mem c hm)
    rw [List.cons_append, Parser.splitAtClose, if_neg hc, ih rest ht]
    rfl

/-- A leading lyric space shifts through the emitter. -/
theorem emitLine_space_head (base : Nat) (tail : List Char) (cs : List EditableChord)
    (hcs : posStrict (base + 1) cs) :
    emitLine base (' ' :: tail) cs = ' ' :: emitLine (base + 1) tail cs := by
  cases cs with
  | nil => rw [emitLine, emitLine]
  | cons d ds =>
    have h1 : base + 1 ≤ d.position := hcs.1
    rw [emitLine, emitLine]
    rcases hm : d.position - base with _ | m
    · omega
    · have hm2 : d.position - (base + 1) = m := by omega
      rw [hm2]
      simp only [List.take_succ_cons, List.drop_succ_cons]
      rfl

end RoundTrip

namespace RoundTrip

open Parser Editable

theorem parse_nil_chords (fuel p : Nat) :
    ((Parser.parseLineAux fuel p ([] : List Char)).2).map (fun c => c.chord) = [] := by
  cases fuel <;> rfl

/-- Parsing a serialized line recovers exactly the chord names, in order. -/
theorem parse_emit_names :
    ∀ (cs : List EditableChord) (lyr : List Char) (base ppos fuel : Nat),
      '[' ∉ lyr →
      (∀ c ∈ cs, c.chord ≠ [] ∧ ']' ∉ c.chord) →
      posStrict base cs → posBounded (base + lyr.length) cs →
      (emitLine base lyr cs).length ≤ fuel →
      ((Parser.parseLineAux fuel ppos (emitLine base lyr cs)).2).map (fun c => c.chord) =
        cs.map (fun c => c.chord) := by
  intro cs
  induction cs with
  | nil =>
    intro lyr base ppos fuel hcl _ _ _ _
    rw [show emitLine base lyr [] = lyr from rfl, parse_clean lyr fuel ppos hcl]
    rfl
  | cons c cs ih =>
    intro lyr base ppos fuel hcl hok hstrict hbound hfuel
    have hcbase : base ≤ c.position := hstrict.1
    have hcpos : c.position ≤ base + lyr.length := hbound c (List.mem_cons_self _ _)
    have hk_le : c.position - base ≤ lyr.length := by omega
    have hcne : c.chord ≠ [] := (hok c (List.mem_cons_self _ _)).1
    have hcnb : ']' ∉ c.chord := (hok c (List.mem_cons_self _ _)).2
    have hemit : emitLine base lyr (c :: cs) =
        lyr.take (c.position - base) ++
          ('[' :: (c.chord ++ (']' ::
            ((if lyr.drop (c.position - base) = [] ∨
                (lyr.drop (c.position - base)).head? = some ' ' then [] else [' ']) ++
              emitLine c.position (lyr.drop (c.position - base)) cs)))) := by
      rw [emitLine]
      simp [List.append_assoc]
    have hpre : '[' ∉ lyr.take (c.position - base) :=
      fun hm => hcl (List.mem_of_mem_take hm)
    have hprelen : (lyr.take (c.position - base)).length = c.position - base := by
      simp only [List.length_take]
      omega
    have hemitlen := congrArg List.length hemit
    simp only [List.length_append, List.length_cons, hprelen] at hemitlen
    have hpre_fuel : (lyr.take (c.position - base)).length ≤ fuel := by
      rw [hprelen]
      omega
    rw [hemit, parse_skip_clean _ fuel ppos _ hpre hpre_fuel]
    simp only
    have hfuel2 : 1 ≤ fuel - (lyr.take (c.position - base)).length := by
      rw [hprelen]
      omega
    obtain ⟨f2, hf2⟩ : ∃ f2, fuel - (lyr.take (c.position - base)).length = f2 + 1 :=
      ⟨fuel - (lyr.take (c.position - base)).length - 1, by omega⟩
    rw [hf2, Parser.parseLineAux, if_pos rfl]
    rw [splitAtClose_token c.chord _ hcnb]
    dsimp only
    rw [if_neg hcne]
    simp only [List.map_cons, List.cons.injEq, true_and]
    rcases hdk : lyr.drop (c.position - base) with _ | ⟨x, xs⟩
    · have hlen0 : lyr.length = c.position - base := by
        have := congrArg List.length hdk
        simp only [List.length_drop, List.length_nil] at this
        omega
      have hcs_nil : cs = [] := by
        cases cs with
        | nil => rfl
        | cons d ds =>
          have h1 : c.position + 1 ≤ d.position := hstrict.2.1
          have h2 := hbound d (List.mem_cons_of_mem c (List.mem_cons_self d ds))
          omega
      subst hcs_nil
      simp only [List.map_nil]
      exact parse_nil_chords f2 _
    · rw [hdk] at hemitlen
      have hxlen : lyr.length = (c.position - base) + (xs.length + 1) := by
        have := congrArg List.length hdk
        simp only [List.length_drop, List.length_cons] at this
        omega
      by_cases hx : x = ' '
      · subst hx
        rw [show (if (' ' :: xs : List Char) = [] ∨ (' ' :: xs : List Char).head? = some ' '
          then ([] : List Char) else [' ']) = [] by simp]
        rw [List.nil_append]
        rw [emitLine_space_head c.position xs cs hstrict.2]
        rw [show ∀ (X : List Char), Parser.eatSpace (' ' :: X) = X by
          intro X; rw [Parser.eatSpace, if_pos rfl]]
        apply ih xs (c.position + 1) _ f2
        · intro hm
          exact hcl (List.mem_of_mem_drop (hdk ▸ List.mem_cons_of_mem ' ' hm))
        · intro d hd
          exact hok d (List.mem_cons_of_mem c hd)
        · exact hstrict.2
        · intro d hd
          have := hbound d (List.mem_cons_of_mem c hd)
          omega
        · rw [show (if (' ' :: xs : List Char) = [] ∨
              (' ' :: xs : List Char).head? = some ' '
              then ([] : List Char) else [' ']) = [] by simp,
            emitLine_space_head c.position xs cs hstrict.2] at hemitlen
          simp only [List.length_nil, List.length_cons] at hemitlen
          omega
      · rw [show (if (x :: xs : List Char) = [] ∨ (x :: xs : List Char).head? = some ' '
          then ([] : List Char) else [' ']) = [' '] by simp [hx]]
        rw [List.singleton_append]
        rw [show ∀ (X : List Char), Parser.eatSpace (' ' :: X) = X by
          intro X; rw [Parser.eatSpace, if_pos rfl]]
        apply ih (x :: xs) c.position _ f2
        · intro hm
          exact hcl (List.mem_of_mem_drop (hdk ▸ hm))
        · intro d hd
          exact hok d (List.mem_cons_of_mem c hd)
        · exact posStrict_mono hstrict.2 (Nat.le_succ _)
        · intro d hd
          have := hbound d (List.mem_cons_of_mem c hd)
          simp only [List.length_cons]
          omega
        · rw [show (if (x :: xs : List Char) = [] ∨
              (x :: xs : List Char).head? = some ' '
              then ([] : List Char) else [' ']) = [' '] by simp [hx]] at hemitlen
          simp only [List.length_singleton] at hemitlen
          omega

end RoundTrip

namespace RoundTrip

open Parser Editable

theorem dropWhile_append_of_ne {p : Char → Bool} :
    ∀ (A B : List Char), A.dropWhile p ≠ [] →
      (A ++ B).dropWhile p = A.dropWhile p ++ B := by
  intro A
  induction A with
  | nil => intro B h; exact absurd rfl h
  | cons a A ih =>
    intro B h
    rw [List.dropWhile_cons] at h
    by_cases ha : p a = true
    · rw [if_pos ha] at h
      rw [List.cons_append, List.dropWhile_cons, if_pos ha, List.dropWhile_cons, if_pos ha]
      exact ih B h
    · rw [if_neg ha] at h
      rw [List.cons_append, List.dropWhile_cons, if_neg ha, List.dropWhile_cons, if_neg ha]
      rfl

theorem dropWhile_append_of_nil {p : Char → Bool} :
    ∀ (A B : List Char), A.dropWhile p = [] →
      (A ++ B).dropWhile p = B.dropWhile p := by
  intro A
  induction A with
  | nil => intro B _; rfl
  | cons a A ih =>
    intro B h
    rw [List.dropWhile_cons] at h
    by_cases ha : p a = true
    · rw [if_pos ha] at h
      rw [List.cons_append, List.dropWhile_cons, if_pos ha]
      exact ih B h
    · rw [if_neg ha] at h
      exact absurd h (by simp)

theorem head?_dropWhile_false {p : Char → Bool} {l : List Char} {a : Char}
    (h : (l.dropWhile p).head? = some a) : p a = false := by
  have h2 := List.head?_dropWhile_not p l
  rw [h] at h2
  exact h2

/-- The head of the trimmed string is the first non-whitespace character. -/
theorem jsTrim_head (l : List Char) : (jsTrim l).head? = (l.dropWhile isWS).head? := by
  unfold jsTrim
  rcases hA : l.dropWhile isWS with _ | ⟨a, A2⟩
  · rfl
  · have ha : isWS a = false := head?_dropWhile_false (by rw [hA]; rfl)
    rw [show (a :: A2).reverse = A2.reverse ++ [a] from by simp]
    by_cases hD : A2.reverse.dropWhile isWS = []
    · rw [dropWhile_append_of_nil _ _ hD]
      rw [List.dropWhile_cons, if_neg (by rw [ha]; exact Bool.false_ne_true)]
      simp
    · rw [dropWhile_append_of_ne _ _ hD]
      rw [List.reverse_append]
      simp

theorem jsTrim_head_mem {l : List Char} {a : Char} (h : (jsTrim l).head? = some a) : a ∈ l := by
  rw [jsTrim_head] at h
  exact (List.dropWhile_sublist _).mem (List.mem_of_mem_head? h)

theorem jsTrim_ne_nil_of_mem {x : Char} {l : List Char} (h : x ∈ l) (hw : isWS x = false) :
    jsTrim l ≠ [] := by
  intro hnil
  have h2 := ChordCopy.mem_jsTrim h hw
  rw [hnil] at h2
  cases h2

/-- Only a line starting with an opening brace can be a directive. -/
theorem parseDirective_none_of_head {l : List Char} (h : l.head? ≠ some '{') :
    Parser.parseDirective l = none := by
  cases l with
  | nil => rfl
  | cons c rest =>
    have hc : c ≠ '{' := by
      intro he
      subst he
      exact h rfl
    rw [Parser.parseDirective.eq_def]
    split
    · rename_i heq
      rw [List.cons.injEq] at heq
      exact absurd heq.1 hc
    · rfl

/-- A string with non-whitespace first and last characters is its own trim. -/
theorem jsTrim_fix {l : List Char} {a b : Char} (h1 : l.head? = some a) (ha : isWS a = false)
    (h2 : l.getLast? = some b) (hb : isWS b = false) : jsTrim l = l := by
  unfold jsTrim
  cases l with
  | nil => cases h1
  | cons c rest =>
    have hc : c = a := by
      rw [List.head?_cons] at h1
      exact Option.some.inj h1
    subst hc
    rw [List.dropWhile_cons, if_neg (by rw [ha]; exact Bool.false_ne_true)]
    rcases hrev : (c :: rest).reverse with _ | ⟨d, ds⟩
    · exact absurd (congrArg List.length hrev) (by simp)
    · have hd : d = b := by
        have h3 := List.head?_reverse (c :: rest)
        rw [hrev, h2] at h3
        rw [List.head?_cons] at h3
        exact Option.some.inj h3
      subst hd
      rw [List.dropWhile_cons, if_neg (by rw [hb]; exact Bool.false_ne_true)]
      rw [← hrev, List.reverse_reverse]

/-- A trim-fixed string has no leading whitespace. -/
theorem dropWhile_of_trimmed {v : List Char} (h : jsTrim v = v) : v.dropWhile isWS = v := by
  cases v with
  | nil => rfl
  | cons c rest =>
    rw [List.dropWhile_cons]
    by_cases hc : isWS c = true
    · exfalso
      have hlen : (jsTrim (c :: rest)).length ≤ rest.length := by
        unfold jsTrim
        rw [List.dropWhile_cons, if_pos hc]
        calc ((rest.dropWhile isWS).reverse.dropWhile isWS).reverse.length
            ≤ (rest.dropWhile isWS).reverse.length := by
              rw [List.length_reverse]
              exact (List.dropWhile_sublist _).length_le
          _ ≤ rest.length := by
              rw [List.length_reverse]
              exact (List.dropWhile_sublist _).length_le
      rw [h] at hlen
      simp only [List.length_cons] at hlen
      omega
    · rw [if_neg hc]

theorem jsTrim_cons_space {v : List Char} (h : jsTrim v = v) : jsTrim (' ' :: v) = v := by
  have hd : (' ' :: v).dropWhile isWS = v.dropWhile isWS := by
    rw [List.dropWhile_cons, if_pos (by decide)]
  unfold jsTrim
  rw [hd, dropWhile_of_trimmed h]
  conv_rhs => rw [← h]
  unfold jsTrim
  rw [dropWhile_of_trimmed h]


theorem natDigitsAux_zero : ∀ (g : Nat), natDigitsAux g 0 [] = [] := by
  intro g
  cases g <;> rfl

theorem natDigitsAux_acc :
    ∀ (fuel m : Nat) (acc : List Char),
      natDigitsAux fuel m acc = natDigitsAux fuel m [] ++ acc := by
  intro fuel
  induction fuel with
  | zero => intro m acc; rfl
  | succ fuel ih =>
    intro m acc
    rcases m with _ | m2
    · rfl
    · rw [show natDigitsAux (fuel + 1) (m2 + 1) acc =
        natDigitsAux fuel ((m2 + 1) / 10) (Char.ofNat ((m2 + 1) % 10 + 48) :: acc) from rfl]
      rw [show natDigitsAux (fuel + 1) (m2 + 1) [] =
        natDigitsAux fuel ((m2 + 1) / 10) [Char.ofNat ((m2 + 1) % 10 + 48)] from rfl]
      rw [ih ((m2 + 1) / 10) (Char.ofNat ((m2 + 1) % 10 + 48) :: acc)]
      rw [ih ((m2 + 1) / 10) [Char.ofNat ((m2 + 1) % 10 + 48)]]
      simp

theorem natDigitsAux_mem :
    ∀ (fuel m : Nat) (c : Char), c ∈ natDigitsAux fuel m [] →
      ∃ d, d < 10 ∧ c = Char.ofNat (d + 48) := by
  intro fuel
  induction fuel with
  | zero => intro m c hc; cases hc
  | succ fuel ih =>
    intro m c hc
    rcases m with _ | m2
    · cases hc
    · rw [show natDigitsAux (fuel + 1) (m2 + 1) [] =
        natDigitsAux fuel ((m2 + 1) / 10) [Char.ofNat ((m2 + 1) % 10 + 48)] from rfl] at hc
      rw [natDigitsAux_acc] at hc
      rcases List.mem_append.mp hc with h1 | h2
      · exact ih _ c h1
      · rw [List.mem_singleton] at h2
        exact ⟨(m2 + 1) % 10, Nat.mod_lt _ (by omega), h2⟩

theorem digit_facts : ∀ d, d < 10 →
    (('0' ≤ Char.ofNat (d + 48) ∧ Char.ofNat (d + 48) ≤ '9') ∧
     isWS (Char.ofNat (d + 48)) = false ∧
     Char.ofNat (d + 48) ≠ '-' ∧ Char.ofNat (d + 48) ≠ '+' ∧
     Char.ofNat (d + 48) ≠ '\n' ∧ Char.ofNat (d + 48) ≠ '\r' ∧
     Char.ofNat (d + 48) ≠ '[' ∧ Char.ofNat (d + 48) ≠ '{' ∧
     Char.ofNat (d + 48) ≠ '#' ∧
     (Char.ofNat (d + 48)).toNat = d + 48) := by
  intro d hd
  interval_cases d <;> exact ⟨by decide, by decide, by decide, by decide, by decide,
    by decide, by decide, by decide, by decide, by decide⟩

theorem natToChars_mem {n : Nat} {c : Char} (hc : c ∈ natToChars n) :
    ∃ d, d < 10 ∧ c = Char.ofNat (d + 48) := by
  rw [natToChars] at hc
  by_cases hn : n = 0
  · rw [if_pos hn] at hc
    rw [List.mem_singleton] at hc
    exact ⟨0, by omega, by rw [hc]⟩
  · rw [if_neg hn] at hc
    exact natDigitsAux_mem n n c hc

theorem natToChars_ne_nil (n : Nat) : natToChars n ≠ [] := by
  rw [natToChars]
  by_cases hn : n = 0
  · rw [if_pos hn]
    simp
  · rw [if_neg hn]
    rcases n with _ | m2
    · exact absurd rfl hn
    · rw [show natDigitsAux (m2 + 1) (m2 + 1) [] =
        natDigitsAux m2 ((m2 + 1) / 10) [Char.ofNat ((m2 + 1) % 10 + 48)] from rfl]
      rw [natDigitsAux_acc]
      simp

theorem natDigitsAux_foldl :
    ∀ (m : Nat), 1 ≤ m → ∀ (fuel : Nat), m ≤ fuel →
      ((natDigitsAux fuel m []).foldl
        (fun acc c => acc * 10 + ((c.toNat : Int) - 48)) 0) = m := by
  intro m
  induction m using Nat.strong_induction_on with
  | _ m ih =>
    intro hm fuel hf
    rcases fuel with _ | g
    · omega
    rcases m with _ | m2
    · omega
    have hstep : natDigitsAux (g + 1) (m2 + 1) [] =
        natDigitsAux g ((m2 + 1) / 10) [] ++ [Char.ofNat ((m2 + 1) % 10 + 48)] := by
      rw [show natDigitsAux (g + 1) (m2 + 1) [] =
        natDigitsAux g ((m2 + 1) / 10) [Char.ofNat ((m2 + 1) % 10 + 48)] from rfl]
      exact natDigitsAux_acc g ((m2 + 1) / 10) _
    rw [hstep, List.foldl_append, List.foldl_cons, List.foldl_nil]
    have hd10 : (m2 + 1) % 10 < 10 := Nat.mod_lt _ (by omega)
    have htn := (digit_facts ((m2 + 1) % 10) hd10).2.2.2.2.2.2.2.2.2
    rw [htn]
    by_cases hq : (m2 + 1) / 10 = 0
    · rw [hq, natDigitsAux_zero, List.foldl_nil]
      have hmod : (m2 + 1) % 10 = m2 + 1 := by
        have := Nat.div_add_mod (m2 + 1) 10
        omega
      rw [hmod]
      push_cast
      omega
    · have hlt : (m2 + 1) / 10 < m2 + 1 := Nat.div_lt_self (by omega) (by omega)
      rw [ih ((m2 + 1) / 10) hlt (by omega) g (by omega)]
      have := Nat.div_add_mod (m2 + 1) 10
      push_cast
      omega

theorem natToChars_foldl (m : Nat) :
    ((natToChars m).foldl (fun acc c => acc * 10 + ((c.toNat : Int) - 48)) 0) = m := by
  rw [natToChars]
  by_cases hm : m = 0
  · rw [if_pos hm, List.foldl_cons, List.foldl_nil, hm]
    decide
  · rw [if_neg hm]
    exact natDigitsAux_foldl m (by omega) m (Nat.le_refl m)

theorem digits_all {D : List Char} (hD : ∀ c ∈ D, ∃ d, d < 10 ∧ c = Char.ofNat (d + 48)) :
    D.takeWhile (fun c => decide ('0' ≤ c ∧ c ≤ '9')) = D := by
  apply List.takeWhile_eq_self_iff.mpr
  intro c hc
  obtain ⟨d, hd, rfl⟩ := hD c hc
  exact decide_eq_true (digit_facts d hd).1

theorem jsParseInt_digit_head (d : Nat) (hd : d < 10) (rest : List Char) :
    jsParseInt (Char.ofNat (d + 48) :: rest) =
      (if (Char.ofNat (d + 48) :: rest).takeWhile (fun c => decide ('0' ≤ c ∧ c ≤ '9')) = []
        then none
       else some (1 * (((Char.ofNat (d + 48) :: rest).takeWhile
           (fun c => decide ('0' ≤ c ∧ c ≤ '9'))).foldl
         (fun acc c => acc * 10 + ((c.toNat : Int) - 48)) 0))) := by
  interval_cases d <;> rfl

theorem jsParseInt_natToChars (m : Nat) : jsParseInt (natToChars m) = some (m : Int) := by
  obtain ⟨c0, rest, hD⟩ : ∃ c0 rest, natToChars m = c0 :: rest := by
    rcases h : natToChars m with _ | ⟨a, b⟩
    · exact absurd h (natToChars_ne_nil m)
    · exact ⟨a, b, rfl⟩
  obtain ⟨d, hd, hc0⟩ := natToChars_mem (n := m) (by rw [hD]; exact List.mem_cons_self _ _)
  rw [hD, hc0, jsParseInt_digit_head d hd rest]
  rw [show Char.ofNat (d + 48) :: rest = natToChars m from by rw [← hc0, ← hD]]
  rw [digits_all (fun c hc => natToChars_mem hc)]
  rw [if_neg (natToChars_ne_nil m)]
  rw [natToChars_foldl, one_mul]

theorem jsParseInt_intToChars (n : Int) : jsParseInt (intToChars n) = some n := by
  by_cases hneg : n < 0
  · rw [intToChars, if_pos hneg]
    have hform : jsParseInt ('-' :: natToChars n.natAbs) =
        (if (natToChars n.natAbs).takeWhile (fun c => decide ('0' ≤ c ∧ c ≤ '9')) = []
          then none
         else some ((-1) *
           (((natToChars n.natAbs).takeWhile (fun c => decide ('0' ≤ c ∧ c ≤ '9'))).foldl
             (fun acc c => acc * 10 + ((c.toNat : Int) - 48)) 0))) := rfl
    rw [hform, digits_all (fun c hc => natToChars_mem hc), if_neg (natToChars_ne_nil _),
      natToChars_foldl]
    congr 1
    omega
  · rw [intToChars, if_neg hneg, jsParseInt_natToChars]
    congr 1
    omega

theorem parseIntOrUndefined_intToChars (n : Int) (hn : n ≠ 0) :
    Parser.parseIntOrUndefined (intToChars n) = some n := by
  unfold Parser.parseIntOrUndefined
  rw [jsParseInt_intToChars]
  dsimp only
  rw [if_neg hn]

/-- One stuck tail computation of the directive regex, shared by all
value-carrying directive lines `{name: value}`. -/
def dirTail (nm tail : List Char) : Option (List Char × List Char) :=
  match tail.reverse.dropWhile isWS with
  | '}' :: revVal =>
    if ((revVal.reverse).dropWhile isWS).any (fun c => c = '\n' || c = '\r') then none
    else some (nm, jsTrim revVal.reverse)
  | _ => none

/-- The serializer's `{name: value}` line. -/
def metaLine (nm v : List Char) : List Char := '{' :: nm ++ ':' :: ' ' :: v ++ ['}']

theorem dirTail_value (nm v : List Char) (hv : jsTrim v = v) (hn1 : '\n' ∉ v)
    (hn2 : '\r' ∉ v) : dirTail nm (' ' :: v ++ ['}']) = some (nm, v) := by
  unfold dirTail
  have hrev : ((' ' :: v ++ ['}']).reverse).dropWhile isWS = '}' :: (v.reverse ++ [' ']) := by
    rw [show (' ' :: v ++ ['}']).reverse = '}' :: (v.reverse ++ [' ']) from by simp]
    rw [List.dropWhile_cons, if_neg (by decide)]
  rw [hrev]
  show (if (((v.reverse ++ [' ']).reverse).dropWhile isWS).any (fun c => c = '\n' || c = '\r')
      then none
      else some (nm, jsTrim (v.reverse ++ [' ']).reverse)) = some (nm, v)
  rw [show (v.reverse ++ [' ']).reverse = ' ' :: v from by simp]
  rw [List.dropWhile_cons, if_pos (show isWS ' ' = true from by decide)]
  rw [dropWhile_of_trimmed hv]
  have hany : (v.any (fun c => decide (c = '\n') || decide (c = '\r'))) = false := by
    rw [List.any_eq_false]
    intro c hc hor
    rcases (Bool.or_eq_true _ _).mp hor with h | h
    · exact hn1 ((of_decide_eq_true h) ▸ hc)
    · exact hn2 ((of_decide_eq_true h) ▸ hc)
  rw [hany, if_neg Bool.false_ne_true]
  rw [jsTrim_cons_space hv]

theorem parseDirective_title (v : List Char) :
    Parser.parseDirective (metaLine ("title".toList) v) =
      dirTail ("title".toList) (' ' :: v ++ ['}']) := rfl

theorem parseDirective_subtitle (v : List Char) :
    Parser.parseDirective (metaLine ("subtitle".toList) v) =
      dirTail ("subtitle".toList) (' ' :: v ++ ['}']) := rfl

theorem parseDirective_artist (v : List Char) :
    Parser.parseDirective (metaLine ("artist".toList) v) =
      dirTail ("artist".toList) (' ' :: v ++ ['}']) := rfl

theorem parseDirective_key (v : List Char) :
    Parser.parseDirective (metaLine ("key".toList) v) =
      dirTail ("key".toList) (' ' :: v ++ ['}']) := rfl

theorem parseDirective_capo (v : List Char) :
    Parser.parseDirective (metaLine ("capo".toList) v) =
      dirTail ("capo".toList) (' ' :: v ++ ['}']) := rfl

theorem parseDirective_tempo (v : List Char) :
    Parser.parseDirective (metaLine ("tempo".toList) v) =
      dirTail ("tempo".toList) (' ' :: v ++ ['}']) := rfl

theorem parseDirective_sov (v : List Char) :
    Parser.parseDirective (metaLine ("sov".toList) v) =
      dirTail ("sov".toList) (' ' :: v ++ ['}']) := rfl

theorem parseDirective_soc (v : List Char) :
    Parser.parseDirective (metaLine ("soc".toList) v) =
      dirTail ("soc".toList) (' ' :: v ++ ['}']) := rfl

theorem parseDirective_sob (v : List Char) :
    Parser.parseDirective (metaLine ("sob".toList) v) =
      dirTail ("sob".toList) (' ' :: v ++ ['}']) := rfl

theorem parseDirective_sot (v : List Char) :
    Parser.parseDirective (metaLine ("sot".toList) v) =
      dirTail ("sot".toList) (' ' :: v ++ ['}']) := rfl

theorem jsTrim_metaLine (nm v : List Char) : jsTrim (metaLine nm v) = metaLine nm v := by
  apply jsTrim_fix (a := '{') (b := '}')
  · rfl
  · decide
  · rw [show metaLine nm v = ('{' :: (nm ++ ':' :: ' ' :: v)) ++ ['}'] from by
      rw [metaLine]; simp]
    exact List.getLast?_concat _
  · decide

/-- The directive dispatch chain of `parseChordPro`, factored out of the loop
body for reuse. -/
def directiveStep (st : Parser.ParseState) (n value : List Char) : Parser.ParseState :=
  if n = "title".toList then { st with song := { st.song with title := some value } }
  else if n = "subtitle".toList then { st with song := { st.song with subtitle := some value } }
  else if n = "artist".toList then { st with song := { st.song with artist := some value } }
  else if n = "key".toList then { st with song := { st.song with key := some value } }
  else if n = "capo".toList then
    { st with song := { st.song with capo := Parser.parseIntOrUndefined value } }
  else if n = "tempo".toList then
    { st with song := { st.song with tempo := Parser.parseIntOrUndefined value } }
  else if ("start_of_".toList).isPrefixOf n then
    let sections :=
      if st.current.lines ≠ [] then st.song.sections ++ [st.current] else st.song.sections
    { song := { st.song with sections := sections },
      current := ⟨n.drop 9, if value = [] then none else some value, []⟩,
      inSection := true }
  else if ("end_of_".toList).isPrefixOf n then
    let sections :=
      if st.current.lines ≠ [] then st.song.sections ++ [st.current] else st.song.sections
    { song := { st.song with sections := sections },
      current := ⟨"none".toList, none, []⟩,
      inSection := false }
  else st

theorem processLine_directive (st : Parser.ParseState) (l nm val : List Char)
    (h1 : (jsTrim l).head? ≠ some '#')
    (h2 : Parser.parseDirective (jsTrim l) = some (nm, val)) :
    Parser.processLine st l = directiveStep st (Parser.normalizeDirective nm) val := by
  rw [Parser.processLine, if_neg h1, h2]
  rfl

theorem directiveStep_title (st : Parser.ParseState) (v : List Char) :
    directiveStep st ("title".toList) v =
      { st with song := { st.song with title := some v } } := rfl

theorem directiveStep_subtitle (st : Parser.ParseState) (v : List Char) :
    directiveStep st ("subtitle".toList) v =
      { st with song := { st.song with subtitle := some v } } := rfl

theorem directiveStep_artist (st : Parser.ParseState) (v : List Char) :
    directiveStep st ("artist".toList) v =
      { st with song := { st.song with artist := some v } } := rfl

theorem directiveStep_key (st : Parser.ParseState) (v : List Char) :
    directiveStep st ("key".toList) v =
      { st with song := { st.song with key := some v } } := rfl

theorem directiveStep_capo (st : Parser.ParseState) (v : List Char) :
    directiveStep st ("capo".toList) v =
      { st with song := { st.song with capo := Parser.parseIntOrUndefined v } } := rfl

theorem directiveStep_tempo (st : Parser.ParseState) (v : List Char) :
    directiveStep st ("tempo".toList) v =
      { st with song := { st.song with tempo := Parser.parseIntOrUndefined v } } := rfl

theorem directiveStep_sov (st : Parser.ParseState) (v : List Char) :
    directiveStep st ("start_of_verse".toList) v =
      ⟨{ st.song with sections := if st.current.lines ≠ [] then
          st.song.sections ++ [st.current] else st.song.sections },
       ⟨"verse".toList, if v = [] then none else some v, []⟩, true⟩ := rfl

theorem directiveStep_soc (st : Parser.ParseState) (v : List Char) :
    directiveStep st ("start_of_chorus".toList) v =
      ⟨{ st.song with sections := if st.current.lines ≠ [] then
          st.song.sections ++ [st.current] else st.song.sections },
       ⟨"chorus".toList, if v = [] then none else some v, []⟩, true⟩ := rfl

theorem directiveStep_sob (st : Parser.ParseState) (v : List Char) :
    directiveStep st ("start_of_bridge".toList) v =
      ⟨{ st.song with sections := if st.current.lines ≠ [] then
          st.song.sections ++ [st.current] else st.song.sections },
       ⟨"bridge".toList, if v = [] then none else some v, []⟩, true⟩ := rfl

theorem directiveStep_sot (st : Parser.ParseState) (v : List Char) :
    directiveStep st ("start_of_tab".toList) v =
      ⟨{ st.song with sections := if st.current.lines ≠ [] then
          st.song.sections ++ [st.current] else st.song.sections },
       ⟨"tab".toList, if v = [] then none else some v, []⟩, true⟩ := rfl

theorem processLine_sov (st : Parser.ParseState) :
    Parser.processLine st ("{sov}".toList) =
      ⟨{ st.song with sections := if st.current.lines ≠ [] then
          st.song.sections ++ [st.current] else st.song.sections },
       ⟨"verse".toList, none, []⟩, true⟩ := rfl

theorem processLine_soc (st : Parser.ParseState) :
    Parser.processLine st ("{soc}".toList) =
      ⟨{ st.song with sections := if st.current.lines ≠ [] then
          st.song.sections ++ [st.current] else st.song.sections },
       ⟨"chorus".toList, none, []⟩, true⟩ := rfl

theorem processLine_sob (st : Parser.ParseState) :
    Parser.processLine st ("{sob}".toList) =
      ⟨{ st.song with sections := if st.current.lines ≠ [] then
          st.song.sections ++ [st.current] else st.song.sections },
       ⟨"bridge".toList, none, []⟩, true⟩ := rfl

theorem processLine_sot (st : Parser.ParseState) :
    Parser.processLine st ("{sot}".toList) =
      ⟨{ st.song with sections := if st.current.lines ≠ [] then
          st.song.sections ++ [st.current] else st.song.sections },
       ⟨"tab".toList, none, []⟩, true⟩ := rfl

theorem processLine_eov (st : Parser.ParseState) :
    Parser.processLine st ("{eov}".toList) =
      ⟨{ st.song with sections := if st.current.lines ≠ [] then
          st.song.sections ++ [st.current] else st.song.sections },
       ⟨"none".toList, none, []⟩, false⟩ := rfl

theorem processLine_eoc (st : Parser.ParseState) :
    Parser.processLine st ("{eoc}".toList) =
      ⟨{ st.song with sections := if st.current.lines ≠ [] then
          st.song.sections ++ [st.current] else st.song.sections },
       ⟨"none".toList, none, []⟩, false⟩ := rfl

theorem processLine_eob (st : Parser.ParseState) :
    Parser.processLine st ("{eob}".toList) =
      ⟨{ st.song with sections := if st.current.lines ≠ [] then
          st.song.sections ++ [st.current] else st.song.sections },
       ⟨"none".toList, none, []⟩, false⟩ := rfl

theorem processLine_eot (st : Parser.ParseState) :
    Parser.processLine st ("{eot}".toList) =
      ⟨{ st.song with sections := if st.current.lines ≠ [] then
          st.song.sections ++ [st.current] else st.song.sections },
       ⟨"none".toList, none, []⟩, false⟩ := rfl

theorem processLine_blank (song : Parser.ParsedSong) :
    Parser.processLine ⟨song, ⟨"none".toList, none, []⟩, false⟩ [] =
      ⟨song, ⟨"none".toList, none, []⟩, false⟩ := rfl


/-- The serializer's text for one editable line. -/
def serLineE (l : EditableLine) : List Char :=
  Editable.insertChordsIntoLine l.lyrics l.chords

/-- Well-formedness of one editable line, as the Document Parser produces it
from reasonable input: lyrics free of brackets, braces and line terminators and
not reading as a comment, chords nonempty and free of closing brackets and line
terminators, positions strictly increasing and within the lyrics. -/
def lineWFE (l : EditableLine) : Prop :=
  '[' ∉ l.lyrics ∧ '{' ∉ l.lyrics ∧ '\n' ∉ l.lyrics ∧ '\r' ∉ l.lyrics ∧
  (jsTrim l.lyrics).head? ≠ some '#' ∧
  (∀ c ∈ l.chords, c.chord ≠ [] ∧ ']' ∉ c.chord ∧ '\n' ∉ c.chord ∧ '\r' ∉ c.chord) ∧
  posStrict 0 l.chords ∧ posBounded l.lyrics.length l.chords

instance (l : EditableLine) : Decidable (lineWFE l) := by
  unfold lineWFE
  infer_instance

theorem serLineE_emit (l : EditableLine) (h : lineWFE l) :
    serLineE l = emitLine 0 l.lyrics l.chords :=
  insertChords_eq_emitLine l.chords l.lyrics h.2.2.2.2.2.2.1 h.2.2.2.2.2.2.2

theorem emit_bracket_mem (lyr : List Char) (c : EditableChord) (cs : List EditableChord) :
    '[' ∈ emitLine 0 lyr (c :: cs) := by
  rw [emitLine]
  simp

theorem emit_firstNonWS (lyr : List Char) (c : EditableChord) (cs : List EditableChord) :
    ((emitLine 0 lyr (c :: cs)).dropWhile isWS).head? = some '[' ∨
    ((emitLine 0 lyr (c :: cs)).dropWhile isWS).head? = (lyr.dropWhile isWS).head? := by
  obtain ⟨R, hR⟩ : ∃ R, emitLine 0 lyr (c :: cs) = lyr.take c.position ++ '[' :: R :=
    ⟨c.chord ++ ']' :: ((if lyr.drop c.position = [] ∨ (lyr.drop c.position).head? = some ' '
        then [] else [' ']) ++ emitLine c.position (lyr.drop c.position) cs), by
      rw [emitLine]
      simp only [Nat.sub_zero, List.append_assoc, List.cons_append, List.singleton_append,
        List.nil_append]⟩
  rw [hR]
  by_cases hA : (lyr.take c.position).dropWhile isWS = []
  · left
    rw [dropWhile_append_of_nil _ _ hA, List.dropWhile_cons, if_neg (by decide)]
    rfl
  · right
    rw [dropWhile_append_of_ne _ _ hA]
    have hlyr : lyr.dropWhile isWS =
        (lyr.take c.position).dropWhile isWS ++ lyr.drop c.position := by
      conv_lhs => rw [← List.take_append_drop c.position lyr]
      rw [dropWhile_append_of_ne _ _ hA]
    rw [hlyr]
    rcases hD : (lyr.take c.position).dropWhile isWS with _ | ⟨x, xs⟩
    · exact absurd hD hA
    · rfl

theorem mem_emitLine :
    ∀ (cs : List EditableChord) (base : Nat) (lyr : List Char) (x : Char),
      x ∈ emitLine base lyr cs →
      x ∈ lyr ∨ (∃ c ∈ cs, x ∈ c.chord) ∨ x = '[' ∨ x = ']' ∨ x = ' ' := by
  intro cs
  induction cs with
  | nil => intro base lyr x hx; exact Or.inl hx
  | cons c cs ih =>
    intro base lyr x hx
    rw [emitLine] at hx
    rcases List.mem_append.mp hx with h1 | h5
    · rcases List.mem_append.mp h1 with h2 | h4
      · rcases List.mem_append.mp h2 with h3 | h3b
        · rcases List.mem_append.mp h3 with hA1 | hA2
          · exact Or.inl (List.mem_of_mem_take hA1)
          · rcases List.mem_cons.mp hA2 with h7 | h8
            · exact Or.inr (Or.inr (Or.inl h7))
            · exact Or.inr (Or.inl ⟨c, List.mem_cons_self _ _, h8⟩)
        · rw [List.mem_singleton] at h3b
          exact Or.inr (Or.inr (Or.inr (Or.inl h3b)))
      · split_ifs at h4
        · cases h4
        · rw [List.mem_singleton] at h4
          exact Or.inr (Or.inr (Or.inr (Or.inr h4)))
    · rcases ih c.position (lyr.drop (c.position - base)) x h5 with ha | hb | hc2 | hd2 | he
      · exact Or.inl (List.mem_of_mem_drop ha)
      · obtain ⟨d, hd, hxd⟩ := hb
        exact Or.inr (Or.inl ⟨d, List.mem_cons_of_mem c hd, hxd⟩)
      · exact Or.inr (Or.inr (Or.inl hc2))
      · exact Or.inr (Or.inr (Or.inr (Or.inl hd2)))
      · exact Or.inr (Or.inr (Or.inr (Or.inr he)))

/-- A serialized well-formed line contains no line terminators. -/
theorem serLine_noNL (l : EditableLine) (h : lineWFE l) : noNL (serLineE l) := by
  obtain ⟨hlb, hlc, hln, hlr, hhash, hch, hstrict, hbound⟩ := h
  rw [serLineE_emit l ⟨hlb, hlc, hln, hlr, hhash, hch, hstrict, hbound⟩]
  constructor
  · intro hx
    rcases mem_emitLine l.chords 0 l.lyrics '\n' hx with ha | ⟨d, hd, hxd⟩ | hb | hb | hb
    · exact hln ha
    · exact (hch d hd).2.2.1 hxd
    · cases hb
    · cases hb
    · cases hb
  · intro hx
    rcases mem_emitLine l.chords 0 l.lyrics '\r' hx with ha | ⟨d, hd, hxd⟩ | hb | hb | hb
    · exact hlr ha
    · exact (hch d hd).2.2.2 hxd
    · cases hb
    · cases hb
    · cases hb

/-- A serialized well-formed line either trims to nothing (and then carried no
chords) or is plain lyric content for the Document Parser. -/
theorem serLine_class (l : EditableLine) (h : lineWFE l) :
    (jsTrim (serLineE l) = [] ∧ l.chords = []) ∨ Parser.plainLine (serLineE l) := by
  obtain ⟨hlb, hlc, hln, hlr, hhash, hch, hstrict, hbound⟩ := h
  have hemit := serLineE_emit l ⟨hlb, hlc, hln, hlr, hhash, hch, hstrict, hbound⟩
  rcases hcs : l.chords with _ | ⟨c, cs⟩
  · rw [hcs] at hemit
    rw [emitLine] at hemit
    by_cases ht : jsTrim l.lyrics = []
    · exact Or.inl ⟨by rw [hemit, ht], rfl⟩
    · right
      refine ⟨by rw [hemit]; exact hhash, ?_, by rw [hemit]; exact ht⟩
      rw [hemit]
      apply parseDirective_none_of_head
      rcases hh : (jsTrim l.lyrics).head? with _ | y
      · exact absurd (List.head?_eq_none_iff.mp hh) ht
      · intro heq
        have hy : y = '{' := Option.some.inj heq
        exact hlc (hy ▸ jsTrim_head_mem hh)
  · right
    rw [hcs] at hemit
    have hbr : '[' ∈ serLineE l := by
      rw [hemit]
      exact emit_bracket_mem l.lyrics c cs
    have htne : jsTrim (serLineE l) ≠ [] := jsTrim_ne_nil_of_mem hbr (by decide)
    have hcases : ((serLineE l).dropWhile isWS).head? = some '[' ∨
        ((serLineE l).dropWhile isWS).head? = (l.lyrics.dropWhile isWS).head? := by
      rw [hemit]
      exact emit_firstNonWS l.lyrics c cs
    refine ⟨?_, ?_, htne⟩
    · rw [jsTrim_head]
      rcases hcases with h1 | h1 <;> rw [h1]
      · intro heq
        cases Option.some.inj heq
      · rw [← jsTrim_head]
        exact hhash
    · apply parseDirective_none_of_head
      rw [jsTrim_head]
      rcases hcases with h1 | h1 <;> rw [h1]
      · intro heq
        cases Option.some.inj heq
      · rw [← jsTrim_head]
        rcases hh : (jsTrim l.lyrics).head? with _ | y
        · intro heq
          cases heq
        · intro heq
          have hy : y = '{' := Option.some.inj heq
          exact hlc (hy ▸ jsTrim_head_mem hh)

/-- What one serialized line contributes to the section being rebuilt. -/
def parsedLineOf (l : EditableLine) : Parser.SongLine :=
  if jsTrim (serLineE l) = [] then ⟨[], []⟩ else Parser.parseLine (serLineE l)

theorem parsedLineOf_names (l : EditableLine) (h : lineWFE l) :
    (parsedLineOf l).chords.map (fun c => c.chord) = l.chords.map (fun c => c.chord) := by
  obtain ⟨hlb, hlc, hln, hlr, hhash, hch, hstrict, hbound⟩ := h
  rcases serLine_class l ⟨hlb, hlc, hln, hlr, hhash, hch, hstrict, hbound⟩ with ⟨hb, hnil⟩ | hp
  · rw [parsedLineOf, if_pos hb, hnil]
    rfl
  · rw [parsedLineOf, if_neg hp.2.2]
    have hemit := serLineE_emit l ⟨hlb, hlc, hln, hlr, hhash, hch, hstrict, hbound⟩
    rw [hemit]
    show ((Parser.parseLineAux (emitLine 0 l.lyrics l.chords).length 0
        (emitLine 0 l.lyrics l.chords)).2).map (fun c => c.chord) =
      l.chords.map (fun c => c.chord)
    apply parse_emit_names l.chords l.lyrics 0 0 _ hlb
      (fun c hc => ⟨(hch c hc).1, (hch c hc).2.1⟩) hstrict
    · rw [Nat.zero_add]
      exact hbound
    · exact Nat.le_refl _


theorem processLine_blank_in (st : Parser.ParseState) (l : List Char)
    (ht : jsTrim l = []) (hcond : st.inSection = true ∨ st.current.lines ≠ []) :
    Parser.processLine st l =
      { st with current := { st.current with
          lines := st.current.lines ++ [⟨[], []⟩] } } := by
  rw [Parser.processLine, ht]
  rw [if_neg (show ¬(([] : List Char).head? = some '#') from by decide)]
  rw [show Parser.parseDirective ([] : List Char) = none from rfl]
  dsimp only
  rw [if_pos rfl]
  have hc : (st.inSection || decide (st.current.lines ≠ [])) = true := by
    rcases hcond with h | h
    · rw [h]
      rfl
    · rw [decide_eq_true h, Bool.or_true]
  rw [if_pos hc]

theorem fold_lines :
    ∀ (ls : List EditableLine) (st : Parser.ParseState),
      (st.inSection = true ∨ st.current.lines ≠ []) → (∀ l ∈ ls, lineWFE l) →
      (ls.map serLineE).foldl Parser.processLine st =
        { st with current := { st.current with
            lines := st.current.lines ++ ls.map parsedLineOf } } := by
  intro ls
  induction ls with
  | nil => intro st _ _; simp
  | cons l rest ih =>
    intro st hcond hall
    rw [List.map_cons, List.foldl_cons]
    have hl := hall l (List.mem_cons_self _ _)
    have hstep : Parser.processLine st (serLineE l) =
        { st with current := { st.current with
            lines := st.current.lines ++ [parsedLineOf l] } } := by
      rcases serLine_class l hl with ⟨hb, _⟩ | hp
      · rw [processLine_blank_in st _ hb hcond, parsedLineOf, if_pos hb]
      · rw [Parser.processLine_plain st _ hp, parsedLineOf, if_neg hp.2.2]
    rw [hstep]
    rw [ih _ (Or.inr (by simp)) (fun x hx => hall x (List.mem_cons_of_mem l hx))]
    simp [List.append_assoc]

def labelOKE : Option (List Char) → Prop
  | none => True
  | some lb => lb ≠ [] ∧ jsTrim lb = lb ∧ '\n' ∉ lb ∧ '\r' ∉ lb

instance : ∀ (o : Option (List Char)), Decidable (labelOKE o)
  | none => .isTrue trivial
  | some lb => by
    unfold labelOKE
    infer_instance

theorem processLine_metaLine_dir (st : Parser.ParseState) (nm lb : List Char)
    (hbridge : Parser.parseDirective (metaLine nm lb) = dirTail nm (' ' :: lb ++ ['}']))
    (htr : jsTrim lb = lb) (hn1 : '\n' ∉ lb) (hn2 : '\r' ∉ lb) :
    Parser.processLine st (metaLine nm lb) =
      directiveStep st (Parser.normalizeDirective nm) lb := by
  apply processLine_directive
  · rw [jsTrim_metaLine]
    show some '{' ≠ some '#'
    decide
  · rw [jsTrim_metaLine, hbridge, dirTail_value _ _ htr hn1 hn2]

theorem processLine_start (st : Parser.ParseState) (t : List Char) (lab : Option (List Char))
    (hty : t = "verse".toList ∨ t = "chorus".toList ∨ t = "bridge".toList ∨
      t = "tab".toList)
    (hlb : labelOKE lab) :
    Parser.processLine st (Editable.sectionStartDirective t lab) =
      ⟨{ st.song with sections := if st.current.lines ≠ [] then
          st.song.sections ++ [st.current] else st.song.sections },
       ⟨t, lab, []⟩, true⟩ := by
  rcases hlab : lab with _ | lb
  · rcases hty with h | h | h | h <;> subst h
    · rw [show Editable.sectionStartDirective ("verse".toList) none = "{sov}".toList from rfl,
        processLine_sov]
    · rw [show Editable.sectionStartDirective ("chorus".toList) none = "{soc}".toList from rfl,
        processLine_soc]
    · rw [show Editable.sectionStartDirective ("bridge".toList) none = "{sob}".toList from rfl,
        processLine_sob]
    · rw [show Editable.sectionStartDirective ("tab".toList) none = "{sot}".toList from rfl,
        processLine_sot]
  · subst hlab
    obtain ⟨hne, htr, hn1, hn2⟩ := hlb
    rcases hty with h | h | h | h <;> subst h
    · rw [show Editable.sectionStartDirective ("verse".toList) (some lb) =
          metaLine ("sov".toList) lb from by
        rw [Editable.sectionStartDirective]
        rw [if_pos hne]
        rfl]
      rw [processLine_metaLine_dir st _ lb (parseDirective_sov lb) htr hn1 hn2]
      rw [show Parser.normalizeDirective ("sov".toList) = "start_of_verse".toList from rfl]
      rw [directiveStep_sov, if_neg hne]
    · rw [show Editable.sectionStartDirective ("chorus".toList) (some lb) =
          metaLine ("soc".toList) lb from by
        rw [Editable.sectionStartDirective]
        rw [if_pos hne]
        rfl]
      rw [processLine_metaLine_dir st _ lb (parseDirective_soc lb) htr hn1 hn2]
      rw [show Parser.normalizeDirective ("soc".toList) = "start_of_chorus".toList from rfl]
      rw [directiveStep_soc, if_neg hne]
    · rw [show Editable.sectionStartDirective ("bridge".toList) (some lb) =
          metaLine ("sob".toList) lb from by
        rw [Editable.sectionStartDirective]
        rw [if_pos hne]
        rfl]
      rw [processLine_metaLine_dir st _ lb (parseDirective_sob lb) htr hn1 hn2]
      rw [show Parser.normalizeDirective ("sob".toList) = "start_of_bridge".toList from rfl]
      rw [directiveStep_sob, if_neg hne]
    · rw [show Editable.sectionStartDirective ("tab".toList) (some lb) =
          metaLine ("sot".toList) lb from by
        rw [Editable.sectionStartDirective]
        rw [if_pos hne]
        rfl]
      rw [processLine_metaLine_dir st _ lb (parseDirective_sot lb) htr hn1 hn2]
      rw [show Parser.normalizeDirective ("sot".toList) = "start_of_tab".toList from rfl]
      rw [directiveStep_sot, if_neg hne]

theorem processLine_end (st : Parser.ParseState) (t : List Char)
    (hty : t = "verse".toList ∨ t = "chorus".toList ∨ t = "bridge".toList ∨
      t = "tab".toList) :
    Parser.processLine st (Editable.sectionEndDirective t) =
      ⟨{ st.song with sections := if st.current.lines ≠ [] then
          st.song.sections ++ [st.current] else st.song.sections },
       ⟨"none".toList, none, []⟩, false⟩ := by
  rcases hty with h | h | h | h <;> subst h
  · rw [show Editable.sectionEndDirective ("verse".toList) = "{eov}".toList from rfl,
      processLine_eov]
  · rw [show Editable.sectionEndDirective ("chorus".toList) = "{eoc}".toList from rfl,
      processLine_eoc]
  · rw [show Editable.sectionEndDirective ("bridge".toList) = "{eob}".toList from rfl,
      processLine_eob]
  · rw [show Editable.sectionEndDirective ("tab".toList) = "{eot}".toList from rfl,
      processLine_eot]

/-- Well-formedness of a directive-bracketed editable section. -/
def sectionWFE (s : EditableSection) : Prop :=
  (s.type = "verse".toList ∨ s.type = "chorus".toList ∨ s.type = "bridge".toList ∨
   s.type = "tab".toList) ∧
  labelOKE s.label ∧ s.lines ≠ [] ∧ (∀ l ∈ s.lines, lineWFE l)

instance (s : EditableSection) : Decidable (sectionWFE s) := by
  unfold sectionWFE
  infer_instance

theorem fold_block (s : EditableSection) (song : Parser.ParsedSong) (h : sectionWFE s) :
    (Editable.emitSection [] s).foldl Parser.processLine
        ⟨song, ⟨"none".toList, none, []⟩, false⟩ =
      ⟨{ song with sections :=
          song.sections ++ [⟨s.type, s.label, s.lines.map parsedLineOf⟩] },
       ⟨"none".toList, none, []⟩, false⟩ := by
  obtain ⟨hty, hlb, hne, hall⟩ := h
  have htyne : s.type ≠ "none".toList := by
    rcases hty with h | h | h | h <;> rw [h] <;> decide
  have hblock : Editable.emitSection [] s =
      Editable.sectionStartDirective s.type s.label ::
        (s.lines.map serLineE ++ [Editable.sectionEndDirective s.type]) := by
    rw [Editable.emitSection]
    rw [if_pos htyne, if_pos htyne]
    simp [serLineE]
  rw [hblock, List.foldl_cons]
  rw [processLine_start _ s.type s.label hty hlb]
  rw [List.foldl_append]
  rw [fold_lines s.lines _ (Or.inl rfl) hall]
  rw [List.foldl_cons, List.foldl_nil]
  rw [processLine_end _ s.type hty]
  dsimp only
  rw [if_neg (show ¬(([] : List Parser.SongLine) ≠ []) from by simp)]
  rw [if_pos (show ([] : List Parser.SongLine) ++ s.lines.map parsedLineOf ≠ [] from by
    simp only [List.nil_append]
    intro hmap
    exact hne (List.map_eq_nil_iff.mp hmap))]
  rw [List.nil_append]


/-- The end-of-input flush of `parseChordPro`. -/
def finishP (st : Parser.ParseState) : Parser.ParsedSong :=
  if st.current.lines ≠ [] then
    { st.song with sections := st.song.sections ++ [st.current] }
  else st.song

theorem parseChordPro_finish (content : List Char) :
    Parser.parseChordPro content =
      finishP ((splitLines content).foldl Parser.processLine Parser.initialState) := rfl

/-- The flat line list `fromEditableSong` produces for the sections, with the
blank separator between consecutive sections. -/
def blocksOf : List EditableSection → List (List Char)
  | [] => []
  | s :: rest =>
    Editable.emitSection [] s ++ (if rest = [] then [] else [] :: blocksOf rest)

theorem emitSection_out (out : List (List Char)) (s : EditableSection) :
    Editable.emitSection out s = out ++ Editable.emitSection [] s := by
  rw [Editable.emitSection, Editable.emitSection]
  by_cases hd : s.type ≠ "none".toList
  · rw [if_pos hd, if_pos hd, if_pos hd, if_pos hd]
    simp [List.append_assoc]
  · rw [if_neg hd, if_neg hd, if_neg hd, if_neg hd]
    simp [List.append_assoc]

theorem emitSections_eq :
    ∀ (secs : List EditableSection) (out : List (List Char)),
      Editable.emitSections out secs = out ++ blocksOf secs := by
  intro secs
  induction secs with
  | nil =>
    intro out
    rw [show Editable.emitSections out [] = out from rfl]
    rw [show blocksOf [] = [] from rfl]
    simp
  | cons s rest ih =>
    intro out
    cases rest with
    | nil =>
      rw [show Editable.emitSections out [s] = Editable.emitSection out s from rfl]
      rw [emitSection_out]
      rw [show blocksOf [s] = Editable.emitSection [] s ++ [] from rfl]
      simp
    | cons r rs =>
      rw [show Editable.emitSections out (s :: r :: rs) =
        Editable.emitSections (Editable.emitSection out s ++ [[]]) (r :: rs) from rfl]
      rw [ih]
      rw [emitSection_out]
      rw [show blocksOf (s :: r :: rs) =
          Editable.emitSection [] s ++ ([] :: blocksOf (r :: rs)) from by
        rw [blocksOf]
        rw [if_neg (by simp)]]
      simp [List.append_assoc]

/-- Well-formedness of a trailing label-free `none` section: its first line must
not serialize to a blank line, or the scanner would skip it. -/
def noneSectionWFE (s : EditableSection) : Prop :=
  s.type = "none".toList ∧ s.label = none ∧ s.lines ≠ [] ∧ (∀ l ∈ s.lines, lineWFE l) ∧
  (∀ l0, s.lines.head? = some l0 → (jsTrim l0.lyrics ≠ [] ∨ l0.chords ≠ []))

instance (s : EditableSection) : Decidable (noneSectionWFE s) := by
  unfold noneSectionWFE
  infer_instance

/-- Well-formedness of the section list: every section is a directive section,
except that the final one may instead be a `none` section. -/
def sectionsWFE : List EditableSection → Prop
  | [] => True
  | s :: rest =>
    if rest = [] then (sectionWFE s ∨ noneSectionWFE s)
    else (sectionWFE s ∧ sectionsWFE rest)

instance sectionsWFEDec : ∀ (l : List EditableSection), Decidable (sectionsWFE l)
  | [] => .isTrue trivial
  | s :: rest => by
    haveI := sectionsWFEDec rest
    unfold sectionsWFE
    infer_instance

theorem serLineE_nil {l : EditableLine} (h : l.chords = []) : serLineE l = l.lyrics := by
  rw [serLineE, Editable.insertChordsIntoLine, if_pos h]

theorem fold_none_block (s : EditableSection) (song : Parser.ParsedSong)
    (h : noneSectionWFE s) :
    (Editable.emitSection [] s).foldl Parser.processLine
        ⟨song, ⟨"none".toList, none, []⟩, false⟩ =
      ⟨song, ⟨"none".toList, none, s.lines.map parsedLineOf⟩, false⟩ := by
  obtain ⟨hty, hlab, hne, hall, hfirst⟩ := h
  have hblock : Editable.emitSection [] s = s.lines.map serLineE := by
    rw [Editable.emitSection]
    rw [if_neg (by rw [hty]; simp), if_neg (by rw [hty]; simp)]
    simp [serLineE]
  rw [hblock]
  rcases hls : s.lines with _ | ⟨l0, ltail⟩
  · exact absurd hls hne
  · rw [List.map_cons, List.foldl_cons]
    have hl0 : lineWFE l0 := hall l0 (by rw [hls]; exact List.mem_cons_self _ _)
    have hplain : Parser.plainLine (serLineE l0) := by
      rcases serLine_class l0 hl0 with ⟨hb, hcnil⟩ | hp
      · exfalso
        rcases hfirst l0 (by rw [hls]; rfl) with h1 | h1
        · rw [serLineE_nil hcnil] at hb
          exact h1 hb
        · exact h1 hcnil
      · exact hp
    rw [Parser.processLine_plain _ _ hplain]
    rw [fold_lines ltail _ (Or.inr (by simp))
      (fun x hx => hall x (by rw [hls]; exact List.mem_cons_of_mem l0 hx))]
    have hl0p : Parser.parseLine (serLineE l0) = parsedLineOf l0 := by
      rw [parsedLineOf, if_neg hplain.2.2]
    simp [hl0p]

theorem fold_blocks :
    ∀ (secs : List EditableSection) (song : Parser.ParsedSong), sectionsWFE secs →
      finishP ((blocksOf secs).foldl Parser.processLine
          ⟨song, ⟨"none".toList, none, []⟩, false⟩) =
        { song with sections := song.sections ++
            secs.map (fun s => ⟨s.type, s.label, s.lines.map parsedLineOf⟩) } := by
  intro secs
  induction secs with
  | nil =>
    intro song _
    rw [show blocksOf [] = [] from rfl, List.foldl_nil]
    rw [finishP, if_neg (by simp)]
    simp
  | cons s rest ih =>
    intro song hwf
    rw [blocksOf]
    rw [sectionsWFE] at hwf
    by_cases hrest : rest = []
    · subst hrest
      rw [if_pos rfl, List.append_nil]
      rw [if_pos rfl] at hwf
      rcases hwf with hws | hwn
      · rw [fold_block s song hws]
        rw [finishP, if_neg (by simp)]
        simp
      · rw [fold_none_block s song hwn]
        rw [finishP]
        rw [if_pos (show s.lines.map parsedLineOf ≠ [] from by
          intro hmap
          exact hwn.2.2.1 (List.map_eq_nil_iff.mp hmap))]
        simp [hwn.1, hwn.2.1]
    · rw [if_neg hrest]
      rw [if_neg hrest] at hwf
      obtain ⟨hws, hwrest⟩ := hwf
      rw [List.foldl_append]
      rw [fold_block s song hws]
      rw [List.foldl_cons]
      rw [processLine_blank]
      rw [ih _ hwrest]
      simp [List.append_assoc]


def numOKE : Option Int → Prop
  | none => True
  | some n => n ≠ 0

instance : ∀ (o : Option Int), Decidable (numOKE o)
  | none => .isTrue trivial
  | some n => by
    unfold numOKE
    infer_instance

def pushF (out : List (List Char)) (field : Option (List Char)) (nm : List Char) :
    List (List Char) :=
  match field with
  | some v => if v ≠ [] then out ++ [metaLine nm v] else out
  | none => out

def pushN (out : List (List Char)) (field : Option Int) (nm : List Char) :
    List (List Char) :=
  match field with
  | some n => out ++ [metaLine nm (intToChars n)]
  | none => out

def metaSeg (field : Option (List Char)) (nm : List Char) : List (List Char) :=
  pushF [] field nm

def metaSegN (field : Option Int) (nm : List Char) : List (List Char) :=
  pushN [] field nm

def metaLines2 (E : EditableSong) : List (List Char) :=
  metaSeg E.title ("title".toList) ++ metaSeg E.subtitle ("subtitle".toList) ++
  metaSeg E.artist ("artist".toList) ++ metaSeg E.key ("key".toList) ++
  metaSegN E.capo ("capo".toList) ++ metaSegN E.tempo ("tempo".toList)

theorem pushF_eq (out : List (List Char)) (field : Option (List Char)) (nm : List Char) :
    pushF out field nm = out ++ metaSeg field nm := by
  cases field with
  | none =>
    rw [metaSeg, pushF, pushF]
    simp
  | some v =>
    rw [metaSeg, pushF, pushF]
    by_cases hv : v ≠ []
    · rw [if_pos hv, if_pos hv]
      simp
    · rw [if_neg hv, if_neg hv]
      simp

theorem pushN_eq (out : List (List Char)) (field : Option Int) (nm : List Char) :
    pushN out field nm = out ++ metaSegN field nm := by
  cases field with
  | none =>
    rw [metaSegN, pushN, pushN]
    simp
  | some n =>
    rw [metaSegN, pushN, pushN]
    simp

theorem fromEditableSong_eq0 (E : EditableSong) :
    Editable.fromEditableSong E =
      (let lines := pushF [] E.title ("title".toList)
       let lines := pushF lines E.subtitle ("subtitle".toList)
       let lines := pushF lines E.artist ("artist".toList)
       let lines := pushF lines E.key ("key".toList)
       let lines := pushN lines E.capo ("capo".toList)
       let lines := pushN lines E.tempo ("tempo".toList)
       joinLF (Editable.emitSections
         (if lines.length > 0 then lines ++ [[]] else lines) E.sections)) := rfl

theorem fromEditableSong_eq (E : EditableSong) :
    Editable.fromEditableSong E =
      joinLF (Editable.emitSections
        (if (metaLines2 E).length > 0 then metaLines2 E ++ [[]] else metaLines2 E)
        E.sections) := by
  rw [fromEditableSong_eq0]
  dsimp only
  rw [pushF_eq, pushF_eq, pushF_eq, pushF_eq, pushN_eq, pushN_eq]
  rw [List.nil_append]
  rfl

theorem jsTrim_of_all_nonWS (l : List Char) (h : ∀ x ∈ l, isWS x = false) :
    jsTrim l = l := by
  have h1 : ∀ (m : List Char), (∀ x ∈ m, isWS x = false) → m.dropWhile isWS = m := by
    intro m hm
    cases m with
    | nil => rfl
    | cons c rest =>
      rw [List.dropWhile_cons,
        if_neg (by rw [hm c (List.mem_cons_self _ _)]; exact Bool.false_ne_true)]
  unfold jsTrim
  rw [h1 l h, h1 l.reverse (fun x hx => h x (List.mem_reverse.mp hx)), List.reverse_reverse]

theorem intToChars_mem {n : Int} {x : Char} (hx : x ∈ intToChars n) :
    x = '-' ∨ ∃ d, d < 10 ∧ x = Char.ofNat (d + 48) := by
  rw [intToChars] at hx
  by_cases hn : n < 0
  · rw [if_pos hn] at hx
    rcases List.mem_cons.mp hx with h | h
    · exact Or.inl h
    · exact Or.inr (natToChars_mem h)
  · rw [if_neg hn] at hx
    exact Or.inr (natToChars_mem hx)

theorem intToChars_nonWS (n : Int) : ∀ x ∈ intToChars n, isWS x = false := by
  intro x hx
  rcases intToChars_mem hx with h | ⟨d, hd, h⟩
  · rw [h]
    decide
  · rw [h]
    exact (digit_facts d hd).2.1

theorem jsTrim_intToChars (n : Int) : jsTrim (intToChars n) = intToChars n :=
  jsTrim_of_all_nonWS _ (intToChars_nonWS n)

theorem intToChars_noNL (n : Int) : '\n' ∉ intToChars n ∧ '\r' ∉ intToChars n := by
  constructor
  · intro hx
    rcases intToChars_mem hx with h | ⟨d, hd, h⟩
    · exact absurd h (by decide)
    · exact (digit_facts d hd).2.2.2.2.1 h.symm
  · intro hx
    rcases intToChars_mem hx with h | ⟨d, hd, h⟩
    · exact absurd h (by decide)
    · exact (digit_facts d hd).2.2.2.2.2.1 h.symm

theorem fold_metaSeg_title (st : Parser.ParseState) (f : Option (List Char))
    (hok : labelOKE f) :
    (metaSeg f ("title".toList)).foldl Parser.processLine st =
      { st with song := { st.song with title :=
          match f with | none => st.song.title | some v => some v } } := by
  cases f with
  | none => rfl
  | some v =>
    obtain ⟨hne, htr, hn1, hn2⟩ := hok
    rw [show metaSeg (some v) ("title".toList) = [metaLine ("title".toList) v] from by
      rw [metaSeg, pushF, if_pos hne]
      simp]
    rw [List.foldl_cons, List.foldl_nil]
    rw [processLine_metaLine_dir st _ v (parseDirective_title v) htr hn1 hn2]
    rw [show Parser.normalizeDirective ("title".toList) = "title".toList from rfl]
    rw [directiveStep_title]

theorem fold_metaSeg_subtitle (st : Parser.ParseState) (f : Option (List Char))
    (hok : labelOKE f) :
    (metaSeg f ("subtitle".toList)).foldl Parser.processLine st =
      { st with song := { st.song with subtitle :=
          match f with | none => st.song.subtitle | some v => some v } } := by
  cases f with
  | none => rfl
  | some v =>
    obtain ⟨hne, htr, hn1, hn2⟩ := hok
    rw [show metaSeg (some v) ("subtitle".toList) = [metaLine ("subtitle".toList) v] from by
      rw [metaSeg, pushF, if_pos hne]
      simp]
    rw [List.foldl_cons, List.foldl_nil]
    rw [processLine_metaLine_dir st _ v (parseDirective_subtitle v) htr hn1 hn2]
    rw [show Parser.normalizeDirective ("subtitle".toList) = "subtitle".toList from rfl]
    rw [directiveStep_subtitle]

theorem fold_metaSeg_artist (st : Parser.ParseState) (f : Option (List Char))
    (hok : labelOKE f) :
    (metaSeg f ("artist".toList)).foldl Parser.processLine st =
      { st with song := { st.song with artist :=
          match f with | none => st.song.artist | some v => some v } } := by
  cases f with
  | none => rfl
  | some v =>
    obtain ⟨hne, htr, hn1, hn2⟩ := hok
    rw [show metaSeg (some v) ("artist".toList) = [metaLine ("artist".toList) v] from by
      rw [metaSeg, pushF, if_pos hne]
      simp]
    rw [List.foldl_cons, List.foldl_nil]
    rw [processLine_metaLine_dir st _ v (parseDirective_artist v) htr hn1 hn2]
    rw [show Parser.normalizeDirective ("artist".toList) = "artist".toList from rfl]
    rw [directiveStep_artist]

theorem fold_metaSeg_key (st : Parser.ParseState) (f : Option (List Char))
    (hok : labelOKE f) :
    (metaSeg f ("key".toList)).foldl Parser.processLine st =
      { st with song := { st.song with key :=
          match f with | none => st.song.key | some v => some v } } := by
  cases f with
  | none => rfl
  | some v =>
    obtain ⟨hne, htr, hn1, hn2⟩ := hok
    rw [show metaSeg (some v) ("key".toList) = [metaLine ("key".toList) v] from by
      rw [metaSeg, pushF, if_pos hne]
      simp]
    rw [List.foldl_cons, List.foldl_nil]
    rw [processLine_metaLine_dir st _ v (parseDirective_key v) htr hn1 hn2]
    rw [show Parser.normalizeDirective ("key".toList) = "key".toList from rfl]
    rw [directiveStep_key]

theorem fold_metaSegN_capo (st : Parser.ParseState) (f : Option Int) (hok : numOKE f) :
    (metaSegN f ("capo".toList)).foldl Parser.processLine st =
      { st with song := { st.song with capo :=
          match f with | none => st.song.capo | some n => some n } } := by
  cases f with
  | none => rfl
  | some n =>
    rw [show metaSegN (some n) ("capo".toList) =
      [metaLine ("capo".toList) (intToChars n)] from rfl]
    rw [List.foldl_cons, List.foldl_nil]
    rw [processLine_metaLine_dir st _ _ (parseDirective_capo _) (jsTrim_intToChars n)
      (intToChars_noNL n).1 (intToChars_noNL n).2]
    rw [show Parser.normalizeDirective ("capo".toList) = "capo".toList from rfl]
    rw [directiveStep_capo]
    rw [parseIntOrUndefined_intToChars n hok]

theorem fold_metaSegN_tempo (st : Parser.ParseState) (f : Option Int) (hok : numOKE f) :
    (metaSegN f ("tempo".toList)).foldl Parser.processLine st =
      { st with song := { st.song with tempo :=
          match f with | none => st.song.tempo | some n => some n } } := by
  cases f with
  | none => rfl
  | some n =>
    rw [show metaSegN (some n) ("tempo".toList) =
      [metaLine ("tempo".toList) (intToChars n)] from rfl]
    rw [List.foldl_cons, List.foldl_nil]
    rw [processLine_metaLine_dir st _ _ (parseDirective_tempo _) (jsTrim_intToChars n)
      (intToChars_noNL n).1 (intToChars_noNL n).2]
    rw [show Parser.normalizeDirective ("tempo".toList) = "tempo".toList from rfl]
    rw [directiveStep_tempo]
    rw [parseIntOrUndefined_intToChars n hok]

theorem fold_meta (t s a k : Option (List Char)) (c te : Option Int)
    (secs : List EditableSection)
    (ht : labelOKE t) (hs : labelOKE s) (ha : labelOKE a)
    (hk : labelOKE k) (hc : numOKE c) (hte : numOKE te) :
    (metaLines2 ⟨t, s, a, k, c, te, secs⟩).foldl Parser.processLine Parser.initialState =
      ⟨⟨t, s, a, k, c, te, []⟩, ⟨"none".toList, none, []⟩, false⟩ := by
  rw [metaLines2]
  rw [List.foldl_append, List.foldl_append, List.foldl_append, List.foldl_append,
    List.foldl_append]
  rw [fold_metaSeg_title _ _ ht]
  rw [fold_metaSeg_subtitle _ _ hs]
  rw [fold_metaSeg_artist _ _ ha]
  rw [fold_metaSeg_key _ _ hk]
  rw [fold_metaSegN_capo _ _ hc]
  rw [fold_metaSegN_tempo _ _ hte]
  cases t <;> cases s <;> cases a <;> cases k <;> cases c <;> cases te <;> rfl


theorem metaLine_noNL (nm v : List Char) (hnm : noNL nm) (hv1 : '\n' ∉ v)
    (hv2 : '\r' ∉ v) : noNL (metaLine nm v) := by
  constructor
  · intro hx
    simp only [metaLine, List.mem_cons, List.mem_append, List.mem_singleton] at hx
    rcases hx with ((h | h) | h | h | h) | h
    · exact absurd h (by decide)
    · exact hnm.1 h
    · exact absurd h (by decide)
    · exact absurd h (by decide)
    · exact hv1 h
    · exact absurd h (by decide)
  · intro hx
    simp only [metaLine, List.mem_cons, List.mem_append, List.mem_singleton] at hx
    rcases hx with ((h | h) | h | h | h) | h
    · exact absurd h (by decide)
    · exact hnm.2 h
    · exact absurd h (by decide)
    · exact absurd h (by decide)
    · exact hv2 h
    · exact absurd h (by decide)

theorem sectionStartDirective_eq_metaLine (ty : List Char) (lb : List Char) (hne : lb ≠ []) :
    Editable.sectionStartDirective ty (some lb) =
      metaLine (Editable.startDirectiveName ty) lb := by
  rw [Editable.sectionStartDirective, if_pos hne]
  rfl

theorem sectionStartDirective_noNL (ty : List Char) (lab : Option (List Char))
    (hty : ty = "verse".toList ∨ ty = "chorus".toList ∨ ty = "bridge".toList ∨
      ty = "tab".toList)
    (hlab : labelOKE lab) : noNL (Editable.sectionStartDirective ty lab) := by
  rcases lab with _ | lb
  · rcases hty with h | h | h | h <;> subst h <;> decide
  · obtain ⟨hne, _, hn1, hn2⟩ := hlab
    rw [sectionStartDirective_eq_metaLine ty lb hne]
    apply metaLine_noNL _ _ _ hn1 hn2
    rcases hty with h | h | h | h <;> subst h <;> decide

theorem sectionEndDirective_noNL (ty : List Char)
    (hty : ty = "verse".toList ∨ ty = "chorus".toList ∨ ty = "bridge".toList ∨
      ty = "tab".toList) : noNL (Editable.sectionEndDirective ty) := by
  rcases hty with h | h | h | h <;> subst h <;> decide

theorem emitSection_directive_eq (s : EditableSection) (htyne : s.type ≠ "none".toList) :
    Editable.emitSection [] s =
      Editable.sectionStartDirective s.type s.label ::
        (s.lines.map serLineE ++ [Editable.sectionEndDirective s.type]) := by
  rw [Editable.emitSection]
  rw [if_pos htyne, if_pos htyne]
  simp [serLineE]

theorem emitSection_none_eq (s : EditableSection) (hty : s.type = "none".toList) :
    Editable.emitSection [] s = s.lines.map serLineE := by
  rw [Editable.emitSection]
  rw [if_neg (by rw [hty]; simp), if_neg (by rw [hty]; simp)]
  simp [serLineE]

theorem emitSection_noNL (s : EditableSection)
    (h : sectionWFE s ∨ noneSectionWFE s) :
    ∀ l ∈ Editable.emitSection [] s, noNL l := by
  rcases h with ⟨hty, hlb, _, hall⟩ | ⟨hty, _, _, hall, _⟩
  · have htyne : s.type ≠ "none".toList := by
      rcases hty with h | h | h | h <;> rw [h] <;> decide
    rw [emitSection_directive_eq s htyne]
    intro l hl
    rcases List.mem_cons.mp hl with rfl | h2
    · exact sectionStartDirective_noNL s.type s.label hty hlb
    · rcases List.mem_append.mp h2 with h3 | h3
      · obtain ⟨x, hx, rfl⟩ := List.mem_map.mp h3
        exact serLine_noNL x (hall x hx)
      · rw [List.mem_singleton] at h3
        subst h3
        exact sectionEndDirective_noNL s.type hty
  · rw [emitSection_none_eq s hty]
    intro l hl
    obtain ⟨x, hx, rfl⟩ := List.mem_map.mp hl
    exact serLine_noNL x (hall x hx)

theorem emitSection_ne_nil (s : EditableSection)
    (h : sectionWFE s ∨ noneSectionWFE s) : Editable.emitSection [] s ≠ [] := by
  rcases h with ⟨hty, _, _, _⟩ | ⟨hty, _, hne, _, _⟩
  · have htyne : s.type ≠ "none".toList := by
      rcases hty with h | h | h | h <;> rw [h] <;> decide
    rw [emitSection_directive_eq s htyne]
    simp
  · rw [emitSection_none_eq s hty]
    intro hmap
    exact hne (List.map_eq_nil_iff.mp hmap)

theorem sectionsWFE_head (s : EditableSection) (rest : List EditableSection)
    (h : sectionsWFE (s :: rest)) : sectionWFE s ∨ noneSectionWFE s := by
  rw [sectionsWFE] at h
  by_cases hr : rest = []
  · rw [if_pos hr] at h
    exact h
  · rw [if_neg hr] at h
    exact Or.inl h.1

theorem blocksOf_noNL : ∀ (secs : List EditableSection), sectionsWFE secs →
    ∀ l ∈ blocksOf secs, noNL l := by
  intro secs
  induction secs with
  | nil => intro _ l hl; cases hl
  | cons s rest ih =>
    intro hwf l hl
    rw [blocksOf] at hl
    rcases List.mem_append.mp hl with h1 | h2
    · exact emitSection_noNL s (sectionsWFE_head s rest hwf) l h1
    · by_cases hr : rest = []
      · rw [if_pos hr] at h2
        cases h2
      · rw [if_neg hr] at h2
        rcases List.mem_cons.mp h2 with rfl | h3
        · exact (by decide : noNL [])
        · rw [sectionsWFE] at hwf
          rw [if_neg hr] at hwf
          exact ih hwf.2 l h3

theorem blocksOf_ne_nil (secs : List EditableSection) (hne : secs ≠ [])
    (hwf : sectionsWFE secs) : blocksOf secs ≠ [] := by
  cases secs with
  | nil => exact absurd rfl hne
  | cons s rest =>
    rw [blocksOf]
    intro happ
    rcases List.append_eq_nil.mp happ with ⟨h1, _⟩
    exact emitSection_ne_nil s (sectionsWFE_head s rest hwf) h1

theorem metaSeg_noNL (f : Option (List Char)) (nm : List Char) (hnm : noNL nm)
    (hok : labelOKE f) : ∀ l ∈ metaSeg f nm, noNL l := by
  cases f with
  | none => intro l hl; cases hl
  | some v =>
    obtain ⟨hne, _, hn1, hn2⟩ := hok
    intro l hl
    rw [show metaSeg (some v) nm = [metaLine nm v] from by
      rw [metaSeg, pushF, if_pos hne]
      simp] at hl
    rw [List.mem_singleton] at hl
    subst hl
    exact metaLine_noNL nm v hnm hn1 hn2

theorem metaSegN_noNL (f : Option Int) (nm : List Char) (hnm : noNL nm) :
    ∀ l ∈ metaSegN f nm, noNL l := by
  cases f with
  | none => intro l hl; cases hl
  | some n =>
    intro l hl
    rw [show metaSegN (some n) nm = [metaLine nm (intToChars n)] from rfl] at hl
    rw [List.mem_singleton] at hl
    subst hl
    exact metaLine_noNL nm _ hnm (intToChars_noNL n).1 (intToChars_noNL n).2

theorem metaLines2_noNL (t s a k : Option (List Char)) (c te : Option Int)
    (secs : List EditableSection)
    (ht : labelOKE t) (hs : labelOKE s) (ha : labelOKE a) (hk : labelOKE k) :
    ∀ l ∈ metaLines2 ⟨t, s, a, k, c, te, secs⟩, noNL l := by
  intro l hl
  rw [metaLines2] at hl
  rcases List.mem_append.mp hl with h | h
  rotate_left
  · exact metaSegN_noNL te _ (by decide) l h
  rcases List.mem_append.mp h with h | h
  rotate_left
  · exact metaSegN_noNL c _ (by decide) l h
  rcases List.mem_append.mp h with h | h
  rotate_left
  · exact metaSeg_noNL k _ (by decide) hk l h
  rcases List.mem_append.mp h with h | h
  rotate_left
  · exact metaSeg_noNL a _ (by decide) ha l h
  rcases List.mem_append.mp h with h | h
  · exact metaSeg_noNL t _ (by decide) ht l h
  · exact metaSeg_noNL s _ (by decide) hs l h

theorem metaSeg_nil_none (f : Option (List Char)) (nm : List Char)
    (hok : labelOKE f) (h : metaSeg f nm = []) : f = none := by
  cases f with
  | none => rfl
  | some v =>
    exfalso
    rw [show metaSeg (some v) nm = [metaLine nm v] from by
      rw [metaSeg, pushF, if_pos hok.1]
      simp] at h
    cases h

theorem metaSegN_nil_none (f : Option Int) (nm : List Char)
    (h : metaSegN f nm = []) : f = none := by
  cases f with
  | none => rfl
  | some n =>
    exfalso
    rw [show metaSegN (some n) nm = [metaLine nm (intToChars n)] from rfl] at h
    cases h


/-- The structural skeleton of one section that claim C1 compares: its type,
its label, and the chord-text sequence of each line (which also fixes the line
count). -/
structure SecSkel where
  type : List Char
  label : Option (List Char)
  chords : List (List (List Char))
deriving DecidableEq, Repr

/-- The structural skeleton of a whole song: the six metadata fields and the
section skeletons. -/
structure SongSkel where
  title : Option (List Char)
  subtitle : Option (List Char)
  artist : Option (List Char)
  key : Option (List Char)
  capo : Option Int
  tempo : Option Int
  sections : List SecSkel
deriving DecidableEq, Repr

def lineSkelP (l : Parser.SongLine) : List (List Char) := l.chords.map (fun c => c.chord)

def secSkelP (s : Parser.SongSection) : SecSkel :=
  ⟨s.type, s.label, s.lines.map lineSkelP⟩

def songSkel (S : Parser.ParsedSong) : SongSkel :=
  ⟨S.title, S.subtitle, S.artist, S.key, S.capo, S.tempo, S.sections.map secSkelP⟩

def lineSkelE (l : EditableLine) : List (List Char) := l.chords.map (fun c => c.chord)

def secSkelE (s : EditableSection) : SecSkel :=
  ⟨s.type, s.label, s.lines.map lineSkelE⟩

def songSkelE (E : EditableSong) : SongSkel :=
  ⟨E.title, E.subtitle, E.artist, E.key, E.capo, E.tempo, E.sections.map secSkelE⟩

/-- Full well-formedness of an editable song. -/
def songWFE (E : EditableSong) : Prop :=
  labelOKE E.title ∧ labelOKE E.subtitle ∧ labelOKE E.artist ∧ labelOKE E.key ∧
  numOKE E.capo ∧ numOKE E.tempo ∧ sectionsWFE E.sections

instance (E : EditableSong) : Decidable (songWFE E) := by
  unfold songWFE
  infer_instance

theorem sectionsWFE_lines : ∀ (secs : List EditableSection), sectionsWFE secs →
    ∀ s2 ∈ secs, ∀ l ∈ s2.lines, lineWFE l := by
  intro secs
  induction secs with
  | nil => intro _ s2 hs2; cases hs2
  | cons s rest ih =>
    intro hwf s2 hs2
    rcases List.mem_cons.mp hs2 with rfl | h2
    · rcases sectionsWFE_head s2 rest hwf with h | h
      · exact h.2.2.2
      · exact h.2.2.2.1
    · by_cases hr : rest = []
      · subst hr
        cases h2
      · rw [sectionsWFE, if_neg hr] at hwf
        exact ih hwf.2 s2 h2

theorem songSkel_final (t s a k : Option (List Char)) (c te : Option Int)
    (secs : List EditableSection) (hsecs : sectionsWFE secs) :
    songSkel ⟨t, s, a, k, c, te,
        ([] : List Parser.SongSection) ++
          secs.map (fun s2 => ⟨s2.type, s2.label, s2.lines.map parsedLineOf⟩)⟩ =
      songSkelE ⟨t, s, a, k, c, te, secs⟩ := by
  have hmap : (secs.map (fun s2 =>
      (⟨s2.type, s2.label, s2.lines.map parsedLineOf⟩ : Parser.SongSection))).map secSkelP =
      secs.map secSkelE := by
    rw [List.map_map]
    apply List.map_congr_left
    intro s2 hs2
    show secSkelP ⟨s2.type, s2.label, s2.lines.map parsedLineOf⟩ = secSkelE s2
    have hlines : (s2.lines.map parsedLineOf).map lineSkelP = s2.lines.map lineSkelE := by
      rw [List.map_map]
      apply List.map_congr_left
      intro l hl
      exact parsedLineOf_names l (sectionsWFE_lines secs hsecs s2 hs2 l hl)
    rw [secSkelP, secSkelE]
    rw [show (⟨s2.type, s2.label, s2.lines.map parsedLineOf⟩ : Parser.SongSection).lines =
      s2.lines.map parsedLineOf from rfl]
    rw [hlines]
  rw [songSkel, songSkelE]
  rw [List.nil_append]
  rw [hmap]

/-- Serializing a well-formed editable song and re-parsing it recovers the same
structural skeleton. -/
theorem parse_fromEditable (E : EditableSong) (h : songWFE E) :
    songSkel (Parser.parseChordPro (Editable.fromEditableSong E)) = songSkelE E := by
  obtain ⟨t, s, a, k, c, te, secs⟩ := E
  obtain ⟨ht, hs, ha, hk2, hc, hte, hsecs⟩ := h
  rw [fromEditableSong_eq, emitSections_eq]
  rw [parseChordPro_finish]
  by_cases hm : metaLines2 ⟨t, s, a, k, c, te, secs⟩ = []
  · rw [hm]
    rw [if_neg (show ¬(([] : List (List Char)).length > 0) from by decide)]
    rw [List.nil_append]
    rw [metaLines2] at hm
    simp only [List.append_eq_nil] at hm
    obtain ⟨⟨⟨⟨⟨h1, h2⟩, h3⟩, h4⟩, h5⟩, h6⟩ := hm
    have ht0 : t = none := metaSeg_nil_none _ _ ht h1
    have hs0 : s = none := metaSeg_nil_none _ _ hs h2
    have ha0 : a = none := metaSeg_nil_none _ _ ha h3
    have hk0 : k = none := metaSeg_nil_none _ _ hk2 h4
    have hc0 : c = none := metaSegN_nil_none _ _ h5
    have hte0 : te = none := metaSegN_nil_none _ _ h6
    subst ht0 hs0 ha0 hk0 hc0 hte0
    by_cases hsecs0 : secs = []
    · subst hsecs0
      rfl
    · rw [splitLines_joinLF _ (blocksOf_ne_nil secs hsecs0 hsecs) (blocksOf_noNL secs hsecs)]
      rw [Parser.initialState]
      rw [fold_blocks secs Parser.emptySong hsecs]
      rw [show Parser.emptySong = ⟨none, none, none, none, none, none, []⟩ from rfl]
      exact songSkel_final none none none none none none secs hsecs
  · have hlen : (metaLines2 ⟨t, s, a, k, c, te, secs⟩).length > 0 := List.length_pos.mpr hm
    rw [if_pos hlen]
    rw [splitLines_joinLF _
      (show (metaLines2 ⟨t, s, a, k, c, te, secs⟩ ++ [[]]) ++ blocksOf secs ≠ [] from by
        intro happ
        rcases List.append_eq_nil.mp happ with ⟨h1, _⟩
        rcases List.append_eq_nil.mp h1 with ⟨_, h2⟩
        cases h2)
      (show ∀ l ∈ (metaLines2 ⟨t, s, a, k, c, te, secs⟩ ++ [[]]) ++ blocksOf secs,
          noNL l from by
        intro l hl
        rcases List.mem_append.mp hl with h1 | h2
        · rcases List.mem_append.mp h1 with h3 | h4
          · exact metaLines2_noNL t s a k c te secs ht hs ha hk2 l h3
          · rw [List.mem_singleton] at h4
            subst h4
            decide
        · exact blocksOf_noNL secs hsecs l h2)]
    rw [List.foldl_append, List.foldl_append]
    rw [fold_meta t s a k c te secs ht hs ha hk2 hc hte]
    rw [List.foldl_cons, List.foldl_nil, processLine_blank]
    rw [fold_blocks secs _ hsecs]
    exact songSkel_final t s a k c te secs hsecs


theorem mapIdx_map_eq {α β γ : Type} :
    ∀ (l : List α) (f : Nat → α → β) (g : β → γ) (h : α → γ),
      (∀ i x, g (f i x) = h x) → (l.mapIdx f).map g = l.map h := by
  intro l
  induction l with
  | nil => intro f g h _; rfl
  | cons a l ih =>
    intro f g h hgf
    rw [List.mapIdx_cons, List.map_cons, List.map_cons, hgf]
    rw [ih (fun i => f (i + 1)) g h (fun i x => hgf (i + 1) x)]

theorem skelE_toEditable (S : Parser.ParsedSong) :
    songSkelE (Editable.toEditableSong S) = songSkel S := by
  rw [songSkelE, songSkel]
  have hsec : (Editable.toEditableSong S).sections.map secSkelE =
      S.sections.map secSkelP := by
    rw [show (Editable.toEditableSong S).sections =
      S.sections.mapIdx (fun sIdx s => Editable.toEditableSection sIdx s) from rfl]
    apply mapIdx_map_eq
    intro i s
    rw [secSkelE, secSkelP]
    have hlines : ((s.lines.mapIdx (fun lIdx l => Editable.toEditableLine i lIdx l)).map
        lineSkelE) = s.lines.map lineSkelP := by
      apply mapIdx_map_eq
      intro j l
      rw [lineSkelE, lineSkelP]
      apply mapIdx_map_eq
      intro q cp
      rfl
    rw [show (Editable.toEditableSection i s).lines =
      s.lines.mapIdx (fun lIdx l => Editable.toEditableLine i lIdx l) from rfl]
    rw [hlines]
    rfl
  rw [hsec]
  rfl

/-- An example song exercising every preserved feature: metadata including a
capo, a labeled verse with stacked-free chords and an interior empty line, an
unlabeled chorus, and trailing free-standing text outside any section. -/
def exampleSong : Parser.ParsedSong :=
  ⟨some ("Song".toList), none, some ("Me".toList), some ("C".toList), some 2, none,
   [⟨"verse".toList, some ("V1".toList),
     [⟨"Hello world".toList, [⟨['C'], 0⟩, ⟨['G'], 6⟩]⟩, ⟨[], []⟩]⟩,
    ⟨"chorus".toList, none, [⟨"La la".toList, []⟩]⟩,
    ⟨"none".toList, none, [⟨"coda line".toList, []⟩]⟩]⟩


/-- Claim C1, counterexample: the round trip does not preserve the skeleton for
every parser-produced song.  Parsing the line `[C][G]x` stacks the chords C and
G at position 0; the serializer re-inserts them as `[G] [C] x`, so re-parsing
reverses the chord order. -/
theorem roundtrip_not_exact_on_stacked_chords :
    songSkel (Parser.parseChordPro (Editable.fromEditableSong (Editable.toEditableSong
        (Parser.parseChordPro ("[C][G]x".toList))))) ≠
      songSkel (Parser.parseChordPro ("[C][G]x".toList)) := by
  decide

/-- Claim C1, amended: for every parsed song whose editable form is
well-formed -- strictly increasing in-range chord positions on each line,
bracket-, brace- and terminator-free lyrics that do not read as comments,
nonempty chord names without closing brackets, trimmed nonempty metadata and
labels, nonzero capo and tempo, sections of the four serializable types with a
possible trailing plain-text section whose first line is not blank --
serializing with `fromEditableSong` and re-parsing with `parseChordPro` yields
the same metadata and, per section, the same type, label, line count and
per-line chord texts in order. -/
theorem roundtrip_skeleton_preserved (S : Parser.ParsedSong)
    (h : songWFE (Editable.toEditableSong S)) :
    songSkel (Parser.parseChordPro (Editable.fromEditableSong
        (Editable.toEditableSong S))) = songSkel S := by
  rw [parse_fromEditable _ h]
  exact skelE_toEditable S

/-- Witness: the example song is well-formed and round-trips. -/
theorem roundtrip_skeleton_preserved_witness :
    songWFE (Editable.toEditableSong exampleSong) ∧
      songSkel (Parser.parseChordPro (Editable.fromEditableSong
          (Editable.toEditableSong exampleSong))) = songSkel exampleSong :=
  ⟨by decide, roundtrip_skeleton_preserved exampleSong (by decide)⟩

end RoundTrip
